import Mathlib

set_option maxHeartbeats 1000000

/- Batteries marks these rational operations irreducible, which blocks the
evaluation of concrete stores by `decide`; the kernel reduces them fine. -/
attribute [local semireducible] Rat.add Rat.mul Rat.sub Rat.inv

/-! Shallow embedding of the out-of-core vector store of
`src/conceptnet5/vectors/oocframe.py` (class `OOCFrame`).

Strings are Lean strings; the Python string primitives the source uses
(`str.split`, the join in `'.'.join`, `os.path.join`, `'{}'.format` on a
natural number) are modelled by the executable functions below, working on
the underlying character lists.  The file system owned by the store is
modelled as an association list from file names to stored vectors
(`np.save` / `np.load` / `os.remove` become update / lookup / erase, and
`os.path.isfile` becomes a key test).  Vectors are lists over a field; the
claims about insertion and combination are settled at `ℚ`, the two claims
that involve `np.sqrt` at `ℝ` with `Real.sqrt`.  Python exceptions
(`ValueError`, `KeyError`, `FileNotFoundError`) are modelled by an error
type; `insert` returns the partially mutated object together with the
optional error, matching the source, where mutations made before a `raise`
persist on the object. -/

/-! ## String primitives -/

/-- The character class of the source's `NON_WORD_CHAR_RE`, complemented:
`[A-Za-z0-9_#]`. -/
def isWordChar (c : Char) : Bool :=
  ('A' ≤ c && c ≤ 'Z') || ('a' ≤ c && c ≤ 'z') || ('0' ≤ c && c ≤ '9') || c == '_' || c == '#'

/-- Python `str.split(sep)` for a one-character separator, on character
lists: `''.split(sep) = ['']`, and every separator occurrence opens a new
chunk. -/
def splitChars (sep : Char) : List Char → List (List Char)
  | [] => [[]]
  | c :: cs =>
    if c = sep then [] :: splitChars sep cs
    else
      match splitChars sep cs with
      | [] => [[c]]
      | h :: t => (c :: h) :: t

/-- Python `sep.join(parts)` for a one-character separator, on character
lists. -/
def joinChars (sep : Char) : List (List Char) → List Char
  | [] => []
  | [x] => x
  | x :: xs => x ++ sep :: joinChars sep xs

/-- Decimal digits (most significant first) of a positive natural number;
the first argument is fuel, instantiated with the number itself so that the
definition is structural and kernel-reducible. -/
def natCharsAux : Nat → Nat → List Char
  | 0, _ => []
  | _ + 1, 0 => []
  | fuel + 1, n + 1 => natCharsAux fuel ((n + 1) / 10) ++ [Nat.digitChar ((n + 1) % 10)]

/-- Python `'{}'.format(n)` for a natural number: its decimal numeral. -/
def natStr (n : Nat) : String :=
  if n = 0 then "0" else String.mk (natCharsAux n n)

def startsWithSlash (s : String) : Bool := s.data.head? == some '/'

def endsWithSlash (s : String) : Bool := s.data.getLast? == some '/'

/-- One step of Python `os.path.join` (posix flavour): an absolute second
component resets the path; otherwise the components are glued, adding a
separator unless one is already there (or the accumulator is empty). -/
def ospJoinTwo (a b : String) : String :=
  if startsWithSlash b then b
  else if a = "" || endsWithSlash a then a ++ b
  else a ++ "/" ++ b

/-- Python `os.path.join(base, *parts)`. -/
def ospJoin (base : String) (parts : List String) : String :=
  parts.foldl ospJoinTwo base

/-! ## Path sharding scheme (`OOCFrame._label2path`, `OOCFrame._filepath2label`) -/

def N_CHAR_DIRS : Nat := 3

/-- The `i`-th one-character sharding directory for a term: `term[i]` when
it exists, `'_'` when the term is too short, and `'_'` when the character
matches `NON_WORD_CHAR_RE`. -/
def shardDir (term : String) (i : Nat) : String :=
  let c := term.data.getD i '_'
  if isWordChar c then String.mk [c] else "_"

/-- `OOCFrame._label2path`: split the label on `'/'`, keep every segment
but the last verbatim, insert `N_CHAR_DIRS` one-character directories taken
from the final segment (the term), then append the term itself, joining
everything under the store path with `os.path.join`. -/
def label2path (sp label : String) : String :=
  let splitted := (splitChars '/' label.data).map String.mk
  let term := splitted.getLastD ""
  ospJoin sp (splitted.dropLast ++ (List.range N_CHAR_DIRS).map (shardDir term) ++ [term])

/-- The shard file name for a path root and a file id: `'{}.npy'` for id
`0` (the canonical, unsuffixed file, as formatted both in `insert` and in
`combine_weights`), `'{}.{}.npy'` for a positive id. -/
def shardName (fpathroot : String) (fid : Nat) : String :=
  fpathroot ++ (if fid = 0 then "" else "." ++ natStr fid) ++ ".npy"

/-- Modelled from the spec: `standardized_uri` is imported from
`conceptnet5.vectors`, a module that is not among the provided source
files.  Per §4.1 of the spec, the inverse mapping reconstitutes the
concept label from the language segment and the file stem through the
label-normalization rule used at insertion time; it is modelled as
rebuilding `/c/<language>/<term>`, the normalization acting as the
identity on already-normalized segments. -/
def standardized_uri (language term : String) : String :=
  "/c/" ++ language ++ "/" ++ term

/-- `OOCFrame._filepath2label`: split the file path on `'/'`, read the
language from position `-(N_CHAR_DIRS + 2)` (a Python negative index, an
`IndexError` — modelled as `none` — when the path has fewer components),
strip the `.npy` extension from the last component with
`'.'.join(split('.')[:-1])`, and rebuild the label with
`standardized_uri`. -/
def filepath2label (fpath : String) : Option String :=
  let splitted := (splitChars '/' fpath.data).map String.mk
  if N_CHAR_DIRS + 2 ≤ splitted.length then
    let language := splitted.getD (splitted.length - (N_CHAR_DIRS + 2)) ""
    let stem := joinChars '.' ((splitChars '.' (splitted.getLastD "").data).dropLast)
    some (standardized_uri language (String.mk stem))
  else none

/-! ## Association lists (Python `dict`s and the on-disk directory) -/

/-- Lookup in an association list (first match). -/
def alistGet {β : Type _} : List (String × β) → String → Option β
  | [], _ => none
  | p :: t, k => if p.1 = k then some p.2 else alistGet t k

/-- Python `d[k] = v`: update in place when the key is present (dicts keep
the original position), append otherwise (dicts keep insertion order). -/
def alistSet {β : Type _} : List (String × β) → String → β → List (String × β)
  | [], k, v => [(k, v)]
  | p :: t, k, v => if p.1 = k then (k, v) :: t else p :: alistSet t k v

/-- `os.remove`: drop the entry for a file name. -/
def alistRemove {β : Type _} (l : List (String × β)) (k : String) : List (String × β) :=
  l.filter (fun p => p.1 ≠ k)

/-! ## Vector arithmetic (numpy elementwise operations) -/

/-- numpy `a + b` (elementwise; all vectors of one store share a length). -/
def vadd {α : Type} [Add α] (a b : List α) : List α := List.zipWith (· + ·) a b

/-- numpy `data * weight` (scalar multiplication from the right). -/
def vmul {α : Type} [Mul α] (v : List α) (w : α) : List α := v.map (· * w)

/-- numpy `a / b` (elementwise). -/
def vdiv {α : Type} [Div α] (a b : List α) : List α := List.zipWith (· / ·) a b

/-! ## The store -/

/-- The exceptions the store can raise.  `insertDisabled`, `duplicateFile`
and `emptyStore` are the source's explicit `ValueError`s; `keyMissing` and
`loadMissing` are the `KeyError` / `FileNotFoundError` that
`combine_weights` and the normalization passes hit when a recorded file is
gone. -/
inductive OocError where
  | insertDisabled : OocError
  | duplicateFile : String → OocError
  | emptyStore : OocError
  | keyMissing : String → OocError
  | loadMissing : String → OocError
deriving DecidableEq

/-- The two members that support `combine_weights`, present exactly while
the store is writable (`disable_insert` sets them to `None`). -/
structure WState (α : Type) where
  fileroots2ids : List (String × Nat)
  filenames2weights : List (String × α)
deriving DecidableEq

/-- The `OOCFrame` object together with the directory subtree it owns:
`path` and `index` are the instance members, `writable` holds
`_fileroots2ids` and `_filenames2weights` while insertion is enabled, and
`fs` is the on-disk state (file name to stored vector).  `disable_insert`
converts `_index` to a `pd.Index`, which preserves both order and
duplicates, so the index is kept as a list throughout. -/
structure OOCFrame (α : Type) where
  path : String
  writable : Option (WState α)
  index : List String
  fs : List (String × List α)
deriving DecidableEq

/-- Construction against a path that does not exist yet: the writable
branch of `OOCFrame.__init__`. -/
def mkNewFrame (α : Type) (path : String) : OOCFrame α :=
  { path := path
    writable := some { fileroots2ids := [], filenames2weights := [] }
    index := [], fs := [] }

/-- `OOCFrame.disable_insert`: set the two writable members to `None`; the
index list is wrapped in a `pd.Index`, which keeps its order and its
duplicates. -/
def OOCFrame.disable_insert {α : Type} (f : OOCFrame α) : OOCFrame α :=
  { f with writable := none }

def strEndsWith (s t : String) : Bool := t.data.isSuffixOf s.data

/-- Construction against a path that already exists: walk the directory
(the walk enumeration `fpaths` is file-system dependent, so it is a
parameter), keep the `*.npy` files, invert each path to a label, and
freeze.  A too-short path makes `_filepath2label` raise, so construction
is `none`. -/
def initExisting (α : Type) (path : String) (fpaths : List String)
    (fs : List (String × List α)) : Option (OOCFrame α) :=
  match (fpaths.filter (fun p => strEndsWith p ".npy")).mapM filepath2label with
  | none => none
  | some labels => some { path := path, writable := none, index := labels, fs := fs }

/-- `OOCFrame.insert(label, data, weight)`.  Returns the object after the
call together with the error, if any: the source appends to `_index` (and,
in the duplicate-file case, bumps `_fileroots2ids`) before it can raise,
and those mutations persist. -/
def OOCFrame.insert {α : Type} (f : OOCFrame α) (label : String) (data : List α)
    (weight : α) : OOCFrame α × Option OocError :=
  match f.writable with
  | none => (f, some .insertDisabled)
  | some st =>
    let f1 : OOCFrame α := { f with index := f.index ++ [label] }
    let fpathroot := label2path f.path label
    let fname := shardName fpathroot 0
    if (alistGet f1.fs fname).isSome then
      let fid := (alistGet st.fileroots2ids fpathroot).getD 0 + 1
      let st1 : WState α := { st with fileroots2ids := alistSet st.fileroots2ids fpathroot fid }
      let fname1 := shardName fpathroot fid
      if (alistGet f1.fs fname1).isSome then
        ({ f1 with writable := some st1 }, some (.duplicateFile fname1))
      else
        ({ f1 with
            writable := some
              { st1 with filenames2weights := alistSet st1.filenames2weights fname1 weight }
            fs := alistSet f1.fs fname1 data }, none)
    else
      ({ f1 with
          writable := some
            { st with filenames2weights := alistSet st.filenames2weights fname weight }
          fs := alistSet f1.fs fname data }, none)

/-- `insert` as an `Except` computation (for chaining successful calls). -/
def OOCFrame.insertE {α : Type} (f : OOCFrame α) (label : String) (data : List α)
    (weight : α) : Except OocError (OOCFrame α) :=
  match f.insert label data weight with
  | (g, none) => .ok g
  | (_, some e) => .error e

/-- A sequence of insertions. -/
def insertAllE {α : Type} (f : OOCFrame α) (seq : List (String × List α × α)) :
    Except OocError (OOCFrame α) :=
  seq.foldlM (fun g i => g.insertE i.1 i.2.1 i.2.2) f

/-- The body of the `for fid in range(maxid + 1)` loop of
`combine_weights`: read the recorded weight (`KeyError` when absent), load
the shard file (`FileNotFoundError` when absent), fold it into the running
weighted sum — `fid = 0` initializes `weighted_avg` — and delete the file.
The state is `(weightsum, weighted_avg, fs)`. -/
def combineStep {α : Type} [Field α] (ws : List (String × α)) (fpathroot : String)
    (st : α × List α × List (String × List α)) (fid : Nat) :
    Except OocError (α × List α × List (String × List α)) :=
  let fname := shardName fpathroot fid
  match alistGet ws fname with
  | none => .error (.keyMissing fname)
  | some weight =>
    match alistGet st.2.2 fname with
    | none => .error (.loadMissing fname)
    | some data =>
      let wavg := if fid = 0 then vmul data weight else vadd st.2.1 (vmul data weight)
      .ok (st.1 + weight, wavg, alistRemove st.2.2 fname)

/-- One path root of `combine_weights`: run the inner loop over
`0 .. maxid`, divide the accumulated sum by the weight sum, and save the
result under the canonical (unsuffixed) name. -/
def combineRoot {α : Type} [Field α] (ws : List (String × α))
    (fs : List (String × List α)) (e : String × Nat) :
    Except OocError (List (String × List α)) := do
  let st ← (List.range (e.2 + 1)).foldlM (combineStep ws e.1) ((0 : α), [], fs)
  .ok (alistSet st.2.2 (shardName e.1 0) (st.2.1.map (· / st.1)))

/-- `OOCFrame.combine_weights`: `if not self._filenames2weights: raise` —
both the `None` member of a frozen store and an empty dict are falsy, so
both take the `emptyStore` exit — then one `combineRoot` per entry of
`_fileroots2ids` (dict iteration order is key insertion order), then
`disable_insert`. -/
def OOCFrame.combine_weights {α : Type} [Field α] (f : OOCFrame α) :
    Except OocError (OOCFrame α) :=
  match f.writable with
  | none => .error .emptyStore
  | some st =>
    if st.filenames2weights.isEmpty then .error .emptyStore
    else do
      let fs1 ← st.fileroots2ids.foldlM (combineRoot st.filenames2weights) f.fs
      .ok (OOCFrame.disable_insert { f with fs := fs1 })

/-- Insert a whole sequence into a fresh store at `sp`, then combine. -/
def runStore {α : Type} [Field α] (sp : String) (seq : List (String × List α × α)) :
    Except OocError (OOCFrame α) := do
  OOCFrame.combine_weights (← insertAllE (mkNewFrame α sp) seq)

/-- The body of the first sweep of `l1_normalize_columns`: load the
label's canonical file from the store's (unchanging) directory and fold it
into the running column sums, which are `None` before the first file. -/
def l1AccStep {α : Type} [Field α] (fs : List (String × List α)) (sp : String)
    (cn : Option (List α)) (label : String) : Except OocError (Option (List α)) :=
  let fname := shardName (label2path sp label) 0
  match alistGet fs fname with
  | none => .error (.loadMissing fname)
  | some data =>
    match cn with
    | none => .ok (some data)
    | some c => .ok (some (vadd c data))

/-- The body of the second sweep of `l1_normalize_columns`: re-load the
file as it currently is, divide elementwise by the column sums, and
overwrite it. -/
def l1DivStep {α : Type} [Field α] (col_norms : List α) (sp : String)
    (fs : List (String × List α)) (label : String) :
    Except OocError (List (String × List α)) :=
  let fname := shardName (label2path sp label) 0
  match alistGet fs fname with
  | none => .error (.loadMissing fname)
  | some data => .ok (alistSet fs fname (vdiv data col_norms))

/-- `OOCFrame.l1_normalize_columns`: two full sweeps over the index.
There is no phase check in the source. -/
def OOCFrame.l1_normalize_columns {α : Type} [Field α] (f : OOCFrame α) :
    Except OocError (OOCFrame α) := do
  let cn ← f.index.foldlM (l1AccStep f.fs f.path) none
  match cn with
  | none => .ok f
  | some col_norms => do
    let fs1 ← f.index.foldlM (l1DivStep col_norms f.path) f.fs
    .ok { f with fs := fs1 }

/-- The body of `l2_normalize_rows`: load the label's canonical file,
divide it elementwise by `np.sqrt(np.sum(np.power(data, 2)))`, and
overwrite it.  The square root is a parameter (`Real.sqrt` at `ℝ`). -/
def l2Step {α : Type} [Field α] (sqrtFn : α → α) (sp : String)
    (fs : List (String × List α)) (label : String) :
    Except OocError (List (String × List α)) :=
  let fname := shardName (label2path sp label) 0
  match alistGet fs fname with
  | none => .error (.loadMissing fname)
  | some data =>
    let row_norm := sqrtFn ((data.map (fun x => x ^ 2)).sum)
    .ok (alistSet fs fname (data.map (· / row_norm)))

/-- `OOCFrame.l2_normalize_rows`: one sweep over the index.  There is no
phase check and no guard against a zero norm in the source. -/
def OOCFrame.l2_normalize_rows {α : Type} [Field α] (sqrtFn : α → α) (f : OOCFrame α) :
    Except OocError (OOCFrame α) := do
  let fs1 ← f.index.foldlM (l2Step sqrtFn f.path) f.fs
  .ok { f with fs := fs1 }

/-- The value `l2_normalize_rows` writes back for one stored vector: the
vector divided by its Euclidean norm. -/
noncomputable def l2n (v : List ℝ) : List ℝ :=
  v.map (· / Real.sqrt ((v.map (fun x => x ^ 2)).sum))

/-! ## Spec-side definitions for the claims -/

/-- The weighted average of the spec and of claim C1, written as stated
there: `Σ(v_i * w_i) / Σ(w_i)`, elementwise over vectors of length `d`. -/
def specWeightedAvg {α : Type} [Field α] (d : Nat) (pairs : List (List α × α)) : List α :=
  ((pairs.map fun p => vmul p.1 p.2).foldl vadd (List.replicate d 0)).map
    (· / (pairs.map Prod.snd).sum)

/-- Distinct labels of the list produce shard file names that never
collide as strings, for every file id that a run of at most `n` insertions
can allocate.  The spec's data model asserts this separation ("path-root
is effectively label-specific"); terms such as `ab` and `ab.1` can violate
it. -/
abbrev SepRoots (sp : String) (ls : List String) (n : Nat) : Prop :=
  ∀ L ∈ ls, ∀ M ∈ ls, L ≠ M → ∀ i < n + 1, ∀ j < n + 1,
    shardName (label2path sp L) i ≠ shardName (label2path sp M) j

/-- The insertions of one label, in order. -/
def occOf {α : Type} (seq : List (String × List α × α)) (L : String) :
    List (String × List α × α) :=
  seq.filter (fun i => i.1 = L)

def vecsOf {α : Type} (seq : List (String × List α × α)) (L : String) : List (List α) :=
  (occOf seq L).map (fun i => i.2.1)

def wtsOf {α : Type} (seq : List (String × List α × α)) (L : String) : List α :=
  (occOf seq L).map (fun i => i.2.2)

def cntOf {α : Type} (seq : List (String × List α × α)) (L : String) : Nat :=
  (occOf seq L).length

/-- The weighted sum exactly as the `combine_weights` loop accumulates it:
the first shard initializes, the rest are added. -/
def scaledSum {α : Type} [Field α] (vs : List (List α)) (ws : List α) : List α :=
  match List.zipWith vmul vs ws with
  | [] => []
  | h :: t => t.foldl vadd h

/-- The vector that ends up in the canonical file of a label after
`combine_weights`: the weighted average for a duplicated label, the
inserted vector itself for a label inserted once. -/
def combinedVec {α : Type} [Field α] (seq : List (String × List α × α)) (L : String) :
    List α :=
  if 2 ≤ cntOf seq L then
    (scaledSum (vecsOf seq L) (wtsOf seq L)).map (· / (wtsOf seq L).sum)
  else (vecsOf seq L).getD 0 []

/-- The canonical (unsuffixed) file of a label, as the normalization
passes compute it. -/
def canonFile (sp L : String) : String := shardName (label2path sp L) 0

/-- The invariant tying the writable store reached by a successful
insertion sequence `seq` (into a fresh store at `sp`) to the sequence
itself: the index is the label sequence, the directory holds the `i`-th
insertion of a label under the shard name with file id `i`, the weight map
mirrors it, and `_fileroots2ids` holds `count - 1` exactly for the
duplicated labels.  The file-id quantifiers are bounded by `seq.length`,
which every allocated file id satisfies. -/
structure InsOk (sp : String) (seq : List (String × List ℚ × ℚ)) (f : OOCFrame ℚ)
    (st : WState ℚ) : Prop where
  path_eq : f.path = sp
  writable_eq : f.writable = some st
  index_eq : f.index = seq.map Prod.fst
  fs_nodup : (f.fs.map Prod.fst).Nodup
  rs_nodup : (st.fileroots2ids.map Prod.fst).Nodup
  fs_get : ∀ L ∈ seq.map Prod.fst, ∀ i ≤ seq.length,
    alistGet f.fs (shardName (label2path sp L) i) = (vecsOf seq L)[i]?
  fs_keys : ∀ key ∈ f.fs.map Prod.fst, ∃ L ∈ seq.map Prod.fst,
    ∃ i < cntOf seq L, key = shardName (label2path sp L) i
  ws_get : ∀ L ∈ seq.map Prod.fst, ∀ i ≤ seq.length,
    alistGet st.filenames2weights (shardName (label2path sp L) i) = (wtsOf seq L)[i]?
  ws_keys : ∀ key ∈ st.filenames2weights.map Prod.fst, ∃ L ∈ seq.map Prod.fst,
    ∃ i < cntOf seq L, key = shardName (label2path sp L) i
  ws_len : st.filenames2weights.length = seq.length
  rs_get : ∀ L ∈ seq.map Prod.fst,
    alistGet st.fileroots2ids (label2path sp L) =
      if 2 ≤ cntOf seq L then some (cntOf seq L - 1) else none
  rs_keys : ∀ e ∈ st.fileroots2ids, ∃ L ∈ seq.map Prod.fst,
    e.1 = label2path sp L ∧ 2 ≤ cntOf seq L ∧ e.2 = cntOf seq L - 1

/-- The shape of the store after a successful `combine_weights` run on a
store reached by the insertion sequence `seq`: frozen, the index still the
full label sequence, and on disk exactly one canonical file per distinct
inserted label, holding `combinedVec`. -/
structure CombinedShape (sp : String) (seq : List (String × List ℚ × ℚ))
    (g : OOCFrame ℚ) : Prop where
  path_eq : g.path = sp
  frozen : g.writable = none
  index_eq : g.index = seq.map Prod.fst
  fs_nodup : (g.fs.map Prod.fst).Nodup
  canon_get : ∀ L ∈ seq.map Prod.fst,
    alistGet g.fs (shardName (label2path sp L) 0) = some (combinedVec seq L)
  sfx_none : ∀ L ∈ seq.map Prod.fst, ∀ i, 1 ≤ i → i ≤ seq.length →
    alistGet g.fs (shardName (label2path sp L) i) = none
  fs_keys : ∀ key ∈ g.fs.map Prod.fst, ∃ L ∈ seq.map Prod.fst,
    key = shardName (label2path sp L) 0

instance {ε α : Type _} [DecidableEq ε] [DecidableEq α] : DecidableEq (Except ε α)
  | .error e, .error f =>
    if h : e = f then .isTrue (by rw [h]) else .isFalse (fun hc => h (by cases hc; rfl))
  | .error _, .ok _ => .isFalse (fun hc => by cases hc)
  | .ok _, .error _ => .isFalse (fun hc => by cases hc)
  | .ok a, .ok b =>
    if h : a = b then .isTrue (by rw [h]) else .isFalse (fun hc => h (by cases hc; rfl))

/-! ## Concrete scenarios used by the claims -/

/-- The duplicate-label scenario of the spec: `/c/en/cat` inserted twice
with weights `1` and `2`. -/
def catSeq : List (String × List ℚ × ℚ) :=
  [("/c/en/cat", ([1, 1], 1)), ("/c/en/cat", ([3, 1], 2))]

/-- A two-label scenario with one duplicated label. -/
def zooSeq : List (String × List ℚ × ℚ) :=
  [("/c/en/dog", ([1, 2], 1)), ("/c/en/cat", ([1, 1], 1)), ("/c/en/cat", ([3, 1], 2))]

/-- A writable store holding one inserted vector. -/
def dogWritable : OOCFrame ℚ := ((mkNewFrame ℚ "st").insert "/c/en/dog" [3, 4] 1).1

/-- A writable store in which the canonical name of `/c/en/ab.1` coincides,
as a string, with the first suffixed shard name of `/c/en/ab`. -/
def abStore : OOCFrame ℚ :=
  (((mkNewFrame ℚ "st").insert "/c/en/ab" [1] 1).1.insert "/c/en/ab.1" [2] 1).1

/-- The writable members of `abStore`. -/
def abWState : WState ℚ :=
  ⟨[], [(shardName (label2path "st" "/c/en/ab") 0, 1),
    (shardName (label2path "st" "/c/en/ab.1") 0, 1)]⟩

/-- A frozen real store holding one exactly-zero vector. -/
def zeroStore : OOCFrame ℝ :=
  { path := "st", writable := none, index := ["/c/en/zero"]
    fs := [(canonFile "st" "/c/en/zero", [0, 0])] }

/-- A frozen real store holding the spec's `[3, 4]` example vector. -/
def dogStore : OOCFrame ℝ :=
  { path := "st", writable := none, index := ["/c/en/dog"]
    fs := [(canonFile "st" "/c/en/dog", [3, 4])] }

/-- A writable real store holding one vector, for the phase-check claim. -/
def dogWritableR : OOCFrame ℝ :=
  { path := "st"
    writable := some
      { fileroots2ids := [], filenames2weights := [(canonFile "st" "/c/en/dog", 1)] }
    index := ["/c/en/dog"], fs := [(canonFile "st" "/c/en/dog", [3, 4])] }

/-! ## Association-list lemmas -/

theorem alistGet_set_self {β : Type _} (l : List (String × β)) (k : String) (v : β) :
    alistGet (alistSet l k v) k = some v := by
  induction l with
  | nil => simp [alistSet, alistGet]
  | cons p t ih =>
    by_cases h : p.1 = k
    · simp [alistSet, h, alistGet]
    · simp [alistSet, h, alistGet, ih]


theorem alistGet_set_ne {β : Type _} (l : List (String × β)) {k k' : String} (v : β)
    (h : k' ≠ k) : alistGet (alistSet l k v) k' = alistGet l k' := by
  have hkk : ¬(k = k') := fun he => h he.symm
  induction l with
  | nil => simp [alistSet, alistGet, hkk]
  | cons p t ih =>
    by_cases hp : p.1 = k
    · subst hp
      simp [alistSet, alistGet, hkk]
    · simp [alistSet, hp, alistGet, ih]

theorem alistRemove_cons {β : Type _} (p : String × β) (t : List (String × β)) (k : String) :
    alistRemove (p :: t) k = if p.1 = k then alistRemove t k else p :: alistRemove t k := by
  by_cases hp : p.1 = k <;> simp [alistRemove, List.filter_cons, hp]

theorem alistGet_remove_self {β : Type _} (l : List (String × β)) (k : String) :
    alistGet (alistRemove l k) k = none := by
  induction l with
  | nil => rfl
  | cons p t ih =>
    rw [alistRemove_cons]
    by_cases hp : p.1 = k
    · rw [if_pos hp]; exact ih
    · rw [if_neg hp]
      simpa [alistGet, hp] using ih

theorem alistGet_remove_ne {β : Type _} (l : List (String × β)) {k k' : String}
    (h : k' ≠ k) : alistGet (alistRemove l k) k' = alistGet l k' := by
  induction l with
  | nil => rfl
  | cons p t ih =>
    rw [alistRemove_cons]
    by_cases hp : p.1 = k
    · rw [if_pos hp]
      have hpk : ¬(p.1 = k') := fun he => h ((he.symm.trans hp))
      simp [alistGet, hpk, ih]
    · rw [if_neg hp]
      by_cases hp' : p.1 = k'
      · simp [alistGet, hp']
      · simp [alistGet, hp', ih]

theorem alistGet_eq_none_iff {β : Type _} (l : List (String × β)) (k : String) :
    alistGet l k = none ↔ k ∉ l.map Prod.fst := by
  induction l with
  | nil => simp [alistGet]
  | cons p t ih =>
    rw [List.map_cons, List.mem_cons]
    by_cases hp : p.1 = k
    · simp [alistGet, hp]
    · simp only [alistGet, if_neg hp, ih, not_or]
      exact ⟨fun hn => ⟨fun he => hp he.symm, hn⟩, fun hn => hn.2⟩

theorem alistGet_isSome_iff {β : Type _} (l : List (String × β)) (k : String) :
    (alistGet l k).isSome = true ↔ k ∈ l.map Prod.fst := by
  rcases h : alistGet l k with _ | v
  · simpa using (alistGet_eq_none_iff l k).mp h
  · simp only [Option.isSome_some, true_iff]
    by_contra hmem
    rw [(alistGet_eq_none_iff l k).mpr hmem] at h
    cases h

theorem mem_keys_alistSet {β : Type _} (l : List (String × β)) (k key : String) (v : β)
    (h : key ∈ (alistSet l k v).map Prod.fst) : key ∈ l.map Prod.fst ∨ key = k := by
  induction l with
  | nil =>
    simp only [alistSet, List.map_cons, List.map_nil, List.mem_singleton] at h
    exact Or.inr h
  | cons p t ih =>
    by_cases hp : p.1 = k
    · simp only [alistSet, if_pos hp, List.map_cons, List.mem_cons] at h
      rcases h with h | h
      · exact Or.inr h
      · exact Or.inl (by rw [List.map_cons]; exact List.mem_cons_of_mem _ h)
    · simp only [alistSet, if_neg hp, List.map_cons, List.mem_cons] at h
      rcases h with h | h
      · exact Or.inl (by rw [List.map_cons]; exact h ▸ List.mem_cons_self _ _)
      · rcases ih h with h' | h'
        · exact Or.inl (by rw [List.map_cons]; exact List.mem_cons_of_mem _ h')
        · exact Or.inr h'

theorem keys_alistSet_of_mem {β : Type _} (l : List (String × β)) (k : String) (v : β)
    (h : k ∈ l.map Prod.fst) : (alistSet l k v).map Prod.fst = l.map Prod.fst := by
  induction l with
  | nil => simp at h
  | cons p t ih =>
    by_cases hp : p.1 = k
    · simp [alistSet, hp]
    · have ht : k ∈ t.map Prod.fst := by
        rw [List.map_cons, List.mem_cons] at h
        rcases h with h' | h'
        · exact absurd h'.symm hp
        · exact h'
      simp [alistSet, hp, ih ht]

theorem keys_alistSet_of_not_mem {β : Type _} (l : List (String × β)) (k : String) (v : β)
    (h : k ∉ l.map Prod.fst) : (alistSet l k v).map Prod.fst = l.map Prod.fst ++ [k] := by
  induction l with
  | nil => simp [alistSet]
  | cons p t ih =>
    have hp : p.1 ≠ k := fun he => h (by rw [List.map_cons]; exact he ▸ List.mem_cons_self _ _)
    have ht : k ∉ t.map Prod.fst := fun hm =>
      h (by rw [List.map_cons]; exact List.mem_cons_of_mem _ hm)
    simp [alistSet, hp, ih ht]

theorem nodup_keys_alistSet {β : Type _} (l : List (String × β)) (k : String) (v : β)
    (h : (l.map Prod.fst).Nodup) : ((alistSet l k v).map Prod.fst).Nodup := by
  by_cases hm : k ∈ l.map Prod.fst
  · rw [keys_alistSet_of_mem l k v hm]; exact h
  · rw [keys_alistSet_of_not_mem l k v hm]
    refine List.Nodup.append h (List.nodup_singleton k) ?_
    intro a ha hak
    rw [List.mem_singleton] at hak
    exact hm (hak ▸ ha)

theorem mem_keys_alistRemove {β : Type _} (l : List (String × β)) (k key : String) :
    key ∈ (alistRemove l k).map Prod.fst ↔ key ∈ l.map Prod.fst ∧ key ≠ k := by
  induction l with
  | nil => simp [alistRemove]
  | cons p t ih =>
    rw [alistRemove_cons]
    by_cases hp : p.1 = k
    · rw [if_pos hp, ih, List.map_cons, List.mem_cons]
      constructor
      · rintro ⟨hm, hne⟩; exact ⟨Or.inr hm, hne⟩
      · rintro ⟨hor, hne⟩
        rcases hor with he | hm
        · exact absurd (he.trans hp) hne
        · exact ⟨hm, hne⟩
    · rw [if_neg hp, List.map_cons, List.map_cons, List.mem_cons, List.mem_cons, ih]
      constructor
      · rintro (he | ⟨hm, hne⟩)
        · exact ⟨Or.inl he, fun hk => hp (he.symm.trans hk)⟩
        · exact ⟨Or.inr hm, hne⟩
      · rintro ⟨hor, hne⟩
        rcases hor with he | hm
        · exact Or.inl he
        · exact Or.inr ⟨hm, hne⟩

theorem nodup_keys_alistRemove {β : Type _} (l : List (String × β)) (k : String)
    (h : (l.map Prod.fst).Nodup) : ((alistRemove l k).map Prod.fst).Nodup :=
  List.Nodup.sublist (List.Sublist.map Prod.fst (List.filter_sublist l)) h

/-! ## Injectivity of the shard file names -/

theorem natCharsAux_le (n : Nat) : ∀ fuel, n ≤ fuel → natCharsAux fuel n = natCharsAux n n := by
  induction n using Nat.strong_induction_on with
  | _ n ih =>
    intro fuel h
    match n, fuel, h with
    | 0, 0, _ => rfl
    | 0, fuel + 1, _ => rfl
    | n + 1, fuel + 1, h =>
      show natCharsAux fuel ((n + 1) / 10) ++ _ = natCharsAux n ((n + 1) / 10) ++ _
      have hd : (n + 1) / 10 < n + 1 := Nat.div_lt_self (Nat.succ_pos n) (by norm_num)
      rw [ih _ hd fuel (by omega), ih _ hd n (by omega)]

theorem natCharsAux_self (n : Nat) (h : 0 < n) :
    natCharsAux n n = natCharsAux (n / 10) (n / 10) ++ [Nat.digitChar (n % 10)] := by
  match n, h with
  | n + 1, _ =>
    show natCharsAux n ((n + 1) / 10) ++ _ = _
    have hd : (n + 1) / 10 < n + 1 := Nat.div_lt_self (Nat.succ_pos n) (by norm_num)
    rw [natCharsAux_le ((n + 1) / 10) n (by omega)]

theorem natCharsAux_ne_nil (n : Nat) (h : 0 < n) : natCharsAux n n ≠ [] := by
  rw [natCharsAux_self n h]
  simp

theorem digitChar_inj_lt : ∀ a, a < 10 → ∀ b, b < 10 → Nat.digitChar a = Nat.digitChar b →
    a = b := by decide

theorem natCharsAux_inj (n : Nat) : ∀ m, natCharsAux n n = natCharsAux m m → n = m := by
  induction n using Nat.strong_induction_on with
  | _ n ih =>
    intro m h
    rcases Nat.eq_zero_or_pos n with hn | hn
    · subst hn
      rcases Nat.eq_zero_or_pos m with hm | hm
      · exact hm.symm
      · exact absurd h.symm (natCharsAux_ne_nil m hm)
    · rcases Nat.eq_zero_or_pos m with hm | hm
      · subst hm
        exact absurd h (natCharsAux_ne_nil n hn)
      · rw [natCharsAux_self n hn, natCharsAux_self m hm] at h
        have hlast := congrArg List.getLast? h
        rw [List.getLast?_concat, List.getLast?_concat, Option.some_inj] at hlast
        have hinit := congrArg List.dropLast h
        rw [List.dropLast_concat, List.dropLast_concat] at hinit
        have hmod : n % 10 = m % 10 :=
          digitChar_inj_lt _ (Nat.mod_lt _ (by norm_num)) _ (Nat.mod_lt _ (by norm_num)) hlast
        have hdiv : n / 10 = m / 10 :=
          ih (n / 10) (Nat.div_lt_self hn (by norm_num)) (m / 10) hinit
        omega

theorem natStr_inj {n m : Nat} (h : natStr n = natStr m) : n = m := by
  unfold natStr at h
  by_cases hn : n = 0 <;> by_cases hm : m = 0
  · omega
  · exfalso
    rw [if_pos hn, if_neg hm] at h
    have hd := congrArg String.data h
    have hm' : 0 < m := Nat.pos_of_ne_zero hm
    rw [natCharsAux_self m hm'] at hd
    have hd : ['0'] = natCharsAux (m / 10) (m / 10) ++ [Nat.digitChar (m % 10)] := hd
    have hlen := congrArg List.length hd
    rw [List.length_append] at hlen
    have hnil : natCharsAux (m / 10) (m / 10) = [] :=
      List.eq_nil_of_length_eq_zero (by simpa using hlen.symm)
    rw [hnil, List.nil_append] at hd
    have hdig : Nat.digitChar (m % 10) = '0' := by
      injection hd with h1 _
      exact h1.symm
    have : m % 10 = 0 :=
      digitChar_inj_lt _ (Nat.mod_lt _ (by norm_num)) 0 (by norm_num) (by simpa using hdig)
    have : m / 10 = 0 := by
      by_contra hds
      exact natCharsAux_ne_nil (m / 10) (Nat.pos_of_ne_zero hds) hnil
    omega
  · exfalso
    rw [if_neg hn, if_pos hm] at h
    have hd := congrArg String.data h.symm
    have hn' : 0 < n := Nat.pos_of_ne_zero hn
    rw [natCharsAux_self n hn'] at hd
    have hd : ['0'] = natCharsAux (n / 10) (n / 10) ++ [Nat.digitChar (n % 10)] := hd
    have hlen := congrArg List.length hd
    rw [List.length_append] at hlen
    have hnil : natCharsAux (n / 10) (n / 10) = [] :=
      List.eq_nil_of_length_eq_zero (by simpa using hlen.symm)
    rw [hnil, List.nil_append] at hd
    have hdig : Nat.digitChar (n % 10) = '0' := by
      injection hd with h1 _
      exact h1.symm
    have : n % 10 = 0 :=
      digitChar_inj_lt _ (Nat.mod_lt _ (by norm_num)) 0 (by norm_num) (by simpa using hdig)
    have : n / 10 = 0 := by
      by_contra hds
      exact natCharsAux_ne_nil (n / 10) (Nat.pos_of_ne_zero hds) hnil
    omega
  · rw [if_neg hn, if_neg hm] at h
    exact natCharsAux_inj n m (congrArg String.data h)

theorem shardName_fid_inj {R : String} {i j : Nat} (h : shardName R i = shardName R j) :
    i = j := by
  unfold shardName at h
  have hd := congrArg String.data h
  rw [String.data_append, String.data_append, String.data_append, String.data_append,
    List.append_assoc, List.append_assoc] at hd
  have hmid := List.append_cancel_right (List.append_cancel_left hd)
  by_cases hi : i = 0 <;> by_cases hj : j = 0
  · omega
  · rw [if_pos hi, if_neg hj] at hmid
    rw [String.data_append] at hmid
    cases hmid
  · rw [if_neg hi, if_pos hj] at hmid
    rw [String.data_append] at hmid
    cases hmid
  · rw [if_neg hi, if_neg hj, String.data_append, String.data_append] at hmid
    have : (natStr i).data = (natStr j).data := by
      have h2 : ('.' :: (natStr i).data) = ('.' :: (natStr j).data) := hmid
      injection h2
    exact natStr_inj (String.ext this)

/-- Every shard file name of a root ends in `.npy` (so the `glob('*.npy')`
of store reconstruction keeps it). -/
theorem shardName_endsWith (R : String) (fid : Nat) :
    strEndsWith (shardName R fid) ".npy" = true := by
  unfold strEndsWith shardName
  rw [List.isSuffixOf_iff_suffix, String.data_append]
  exact List.suffix_append _ _

/-! ## Vector lemmas -/

theorem length_vadd {α : Type} [Add α] (a b : List α) (d : Nat) (ha : a.length = d)
    (hb : b.length = d) : (vadd a b).length = d := by
  rw [vadd, List.length_zipWith, ha, hb]
  exact min_self d

theorem length_vmul {α : Type} [Mul α] (v : List α) (w : α) : (vmul v w).length = v.length :=
  List.length_map v _

theorem vadd_replicate_zero {α : Type} [AddZeroClass α] (v : List α) (d : Nat)
    (h : v.length = d) : vadd (List.replicate d 0) v = v := by
  induction v generalizing d with
  | nil => subst h; rfl
  | cons x t ih =>
    subst h
    simp only [List.length_cons, List.replicate_succ, vadd, List.zipWith_cons_cons, zero_add]
    exact congrArg (x :: ·) (ih t.length rfl)

theorem getD_vadd {α : Type} [AddZeroClass α] (a b : List α) (h : a.length = b.length)
    (j : Nat) : (vadd a b).getD j 0 = a.getD j 0 + b.getD j 0 := by
  induction a generalizing b j with
  | nil =>
    have : b = [] := List.eq_nil_of_length_eq_zero h.symm
    subst this
    simp [vadd]
  | cons x t ih =>
    match b with
    | [] => cases h
    | y :: u =>
      match j with
      | 0 => simp [vadd]
      | j + 1 =>
        simp only [vadd, List.zipWith_cons_cons, List.getD_cons_succ]
        exact ih u (by simpa using h) j

theorem length_foldl_vadd {α : Type} [Add α] (l : List (List α)) (acc : List α) (d : Nat)
    (hacc : acc.length = d) (hl : ∀ v ∈ l, v.length = d) : (l.foldl vadd acc).length = d := by
  induction l generalizing acc with
  | nil => exact hacc
  | cons x t ih =>
    exact ih (vadd acc x) (length_vadd acc x d hacc (hl x (List.mem_cons_self _ _)))
      (fun v hv => hl v (List.mem_cons_of_mem _ hv))

theorem getD_foldl_vadd {α : Type} [AddCommMonoid α] (l : List (List α)) (acc : List α)
    (d : Nat) (hacc : acc.length = d) (hl : ∀ v ∈ l, v.length = d) (j : Nat) :
    (l.foldl vadd acc).getD j 0 = acc.getD j 0 + (l.map (fun v => v.getD j 0)).sum := by
  induction l generalizing acc with
  | nil => simp
  | cons x t ih =>
    have hx : x.length = d := hl x (List.mem_cons_self _ _)
    rw [List.foldl_cons,
      ih (vadd acc x) (length_vadd acc x d hacc hx) (fun v hv => hl v (List.mem_cons_of_mem _ hv)),
      getD_vadd acc x (by omega) j, List.map_cons, List.sum_cons, add_assoc]

theorem eq_of_getD {α : Type} [Zero α] (a b : List α) (d : Nat) (ha : a.length = d)
    (hb : b.length = d) (h : ∀ j, a.getD j 0 = b.getD j 0) : a = b := by
  refine List.ext_getElem (by omega) (fun n h1 h2 => ?_)
  have := h n
  rwa [List.getD_eq_getElem a 0 h1, List.getD_eq_getElem b 0 h2] at this

/-- The weighted-sum-then-divide of the spec formula is invariant under
permutations of the insertion list. -/
theorem specWeightedAvg_perm {α : Type} [Field α] (d : Nat)
    (p1 p2 : List (List α × α)) (hlen : ∀ p ∈ p1, p.1.length = d) (hp : p1.Perm p2) :
    specWeightedAvg d p1 = specWeightedAvg d p2 := by
  have hlen2 : ∀ p ∈ p2, p.1.length = d := fun p hm => hlen p (hp.symm.subset hm)
  have hw : (p1.map Prod.snd).sum = (p2.map Prod.snd).sum := (hp.map Prod.snd).sum_eq
  have hl1 : ∀ v ∈ p1.map (fun p => vmul p.1 p.2), v.length = d := by
    intro v hv
    rcases List.mem_map.mp hv with ⟨p, hpm, rfl⟩
    rw [length_vmul]
    exact hlen p hpm
  have hl2 : ∀ v ∈ p2.map (fun p => vmul p.1 p.2), v.length = d := by
    intro v hv
    rcases List.mem_map.mp hv with ⟨p, hpm, rfl⟩
    rw [length_vmul]
    exact hlen2 p hpm
  have hnum : (p1.map (fun p => vmul p.1 p.2)).foldl vadd (List.replicate d 0) =
      (p2.map (fun p => vmul p.1 p.2)).foldl vadd (List.replicate d 0) := by
    refine eq_of_getD _ _ d
      (length_foldl_vadd _ _ d (List.length_replicate d 0) hl1)
      (length_foldl_vadd _ _ d (List.length_replicate d 0) hl2) (fun j => ?_)
    rw [getD_foldl_vadd _ _ d (List.length_replicate d 0) hl1 j,
      getD_foldl_vadd _ _ d (List.length_replicate d 0) hl2 j]
    have : ((p1.map (fun p => vmul p.1 p.2)).map (fun v => v.getD j 0)).Perm
        ((p2.map (fun p => vmul p.1 p.2)).map (fun v => v.getD j 0)) :=
      (hp.map (fun p => vmul p.1 p.2)).map _
    rw [this.sum_eq]
  rw [specWeightedAvg, specWeightedAvg, hnum, hw]

/-! ## Occurrence bookkeeping -/

theorem alistGet_some_mem {β : Type _} (l : List (String × β)) (k : String) (v : β)
    (h : alistGet l k = some v) : (k, v) ∈ l := by
  induction l with
  | nil => cases h
  | cons p t ih =>
    by_cases hp : p.1 = k
    · rw [alistGet, if_pos hp] at h
      have hv : p.2 = v := by injection h
      have hpe : p = (k, v) := Prod.ext hp hv
      rw [← hpe]
      exact List.mem_cons_self _ _
    · rw [alistGet, if_neg hp] at h
      exact List.mem_cons_of_mem _ (ih h)

theorem mem_alistSet_elim {β : Type _} (l : List (String × β)) (k : String) (v : β)
    (e : String × β) (hnd : (l.map Prod.fst).Nodup) (h : e ∈ alistSet l k v) :
    (e ∈ l ∧ e.1 ≠ k) ∨ e = (k, v) := by
  induction l with
  | nil =>
    rw [alistSet, List.mem_singleton] at h
    exact Or.inr h
  | cons p t ih =>
    rw [List.map_cons, List.nodup_cons] at hnd
    by_cases hp : p.1 = k
    · rw [alistSet, if_pos hp, List.mem_cons] at h
      rcases h with h | h
      · exact Or.inr h
      · refine Or.inl ⟨List.mem_cons_of_mem _ h, fun he => ?_⟩
        have hm : e.1 ∈ t.map Prod.fst := List.mem_map_of_mem Prod.fst h
        rw [he, ← hp] at hm
        exact hnd.1 hm
    · rw [alistSet, if_neg hp, List.mem_cons] at h
      rcases h with h | h
      · exact Or.inl ⟨by rw [h]; exact List.mem_cons_self _ _, by rw [h]; exact hp⟩
      · rcases ih hnd.2 h with ⟨hm, hne⟩ | he
        · exact Or.inl ⟨List.mem_cons_of_mem _ hm, hne⟩
        · exact Or.inr he

theorem occOf_append {α : Type} (s1 s2 : List (String × List α × α)) (L : String) :
    occOf (s1 ++ s2) L = occOf s1 L ++ occOf s2 L :=
  List.filter_append _ _

theorem occOf_nil_of_not_mem {α : Type} (seq : List (String × List α × α)) (L : String)
    (h : L ∉ seq.map Prod.fst) : occOf seq L = [] := by
  induction seq with
  | nil => rfl
  | cons x t ih =>
    have hx : ¬(x.1 = L) := fun he => h (by rw [List.map_cons]; exact he ▸ List.mem_cons_self _ _)
    have ht : L ∉ t.map Prod.fst := fun hm => h (by rw [List.map_cons]; exact List.mem_cons_of_mem _ hm)
    simp only [occOf, List.filter_cons, decide_eq_true_eq]
    rw [if_neg (by simpa using hx)]
    exact ih ht

theorem cntOf_pos_of_mem {α : Type} (seq : List (String × List α × α)) (L : String)
    (h : L ∈ seq.map Prod.fst) : 0 < cntOf seq L := by
  rcases List.mem_map.mp h with ⟨x, hx, rfl⟩
  rw [cntOf]
  refine List.length_pos.mpr (fun hnil => ?_)
  have : x ∈ occOf seq x.1 := List.mem_filter.mpr ⟨hx, by simp⟩
  rw [hnil] at this
  cases this

theorem mem_of_cntOf_pos {α : Type} (seq : List (String × List α × α)) (L : String)
    (h : 0 < cntOf seq L) : L ∈ seq.map Prod.fst := by
  by_contra hm
  rw [cntOf, occOf_nil_of_not_mem seq L hm] at h
  cases h

theorem cntOf_le_length {α : Type} (seq : List (String × List α × α)) (L : String) :
    cntOf seq L ≤ seq.length :=
  List.length_filter_le _ _

theorem length_vecsOf {α : Type} (seq : List (String × List α × α)) (L : String) :
    (vecsOf seq L).length = cntOf seq L := List.length_map _ _

theorem length_wtsOf {α : Type} (seq : List (String × List α × α)) (L : String) :
    (wtsOf seq L).length = cntOf seq L := List.length_map _ _

theorem occOf_concat_self {α : Type} (seq : List (String × List α × α))
    (x : String × List α × α) : occOf (seq ++ [x]) x.1 = occOf seq x.1 ++ [x] := by
  rw [occOf_append]
  simp [occOf]

theorem occOf_concat_ne {α : Type} (seq : List (String × List α × α))
    (x : String × List α × α) (L : String) (h : L ≠ x.1) :
    occOf (seq ++ [x]) L = occOf seq L := by
  rw [occOf_append]
  have : ¬(x.1 = L) := fun he => h he.symm
  simp [occOf, this]

theorem cntOf_concat_self {α : Type} (seq : List (String × List α × α))
    (x : String × List α × α) : cntOf (seq ++ [x]) x.1 = cntOf seq x.1 + 1 := by
  rw [cntOf, occOf_concat_self, List.length_append]
  rfl

theorem cntOf_concat_ne {α : Type} (seq : List (String × List α × α))
    (x : String × List α × α) (L : String) (h : L ≠ x.1) :
    cntOf (seq ++ [x]) L = cntOf seq L := by
  rw [cntOf, occOf_concat_ne seq x L h]
  rfl

theorem vecsOf_concat_self {α : Type} (seq : List (String × List α × α))
    (x : String × List α × α) : vecsOf (seq ++ [x]) x.1 = vecsOf seq x.1 ++ [x.2.1] := by
  rw [vecsOf, occOf_concat_self, List.map_append]
  rfl

theorem vecsOf_concat_ne {α : Type} (seq : List (String × List α × α))
    (x : String × List α × α) (L : String) (h : L ≠ x.1) :
    vecsOf (seq ++ [x]) L = vecsOf seq L := by
  rw [vecsOf, occOf_concat_ne seq x L h]
  rfl

theorem wtsOf_concat_self {α : Type} (seq : List (String × List α × α))
    (x : String × List α × α) : wtsOf (seq ++ [x]) x.1 = wtsOf seq x.1 ++ [x.2.2] := by
  rw [wtsOf, occOf_concat_self, List.map_append]
  rfl

theorem wtsOf_concat_ne {α : Type} (seq : List (String × List α × α))
    (x : String × List α × α) (L : String) (h : L ≠ x.1) :
    wtsOf (seq ++ [x]) L = wtsOf seq L := by
  rw [wtsOf, occOf_concat_ne seq x L h]
  rfl

theorem SepRoots.mono {sp : String} {ls1 ls2 : List String} {n1 n2 : Nat}
    (h : SepRoots sp ls2 n2) (hsub : ∀ L ∈ ls1, L ∈ ls2) (hn : n1 ≤ n2) :
    SepRoots sp ls1 n1 := fun L hL M hM hne i hi j hj =>
  h L (hsub L hL) M (hsub M hM) hne i (by omega) j (by omega)

/-! ## The three outcomes of one `insert` call -/

theorem insert_eq_new (f : OOCFrame ℚ) (st : WState ℚ) (sp L : String) (v : List ℚ) (w : ℚ)
    (hp : f.path = sp) (hw : f.writable = some st)
    (h0 : alistGet f.fs (shardName (label2path sp L) 0) = none) :
    f.insert L v w =
      (⟨f.path,
        some ⟨st.fileroots2ids,
          alistSet st.filenames2weights (shardName (label2path sp L) 0) w⟩,
        f.index ++ [L],
        alistSet f.fs (shardName (label2path sp L) 0) v⟩, none) := by
  subst hp
  simp only [OOCFrame.insert, hw, h0]
  rfl

theorem insert_eq_dup (f : OOCFrame ℚ) (st : WState ℚ) (sp L : String) (v : List ℚ) (w : ℚ)
    (u : List ℚ) (hp : f.path = sp) (hw : f.writable = some st)
    (h0 : alistGet f.fs (shardName (label2path sp L) 0) = some u)
    (h1 : alistGet f.fs
      (shardName (label2path sp L)
        ((alistGet st.fileroots2ids (label2path sp L)).getD 0 + 1)) = none) :
    f.insert L v w =
      (⟨f.path,
        some ⟨alistSet st.fileroots2ids (label2path sp L)
            ((alistGet st.fileroots2ids (label2path sp L)).getD 0 + 1),
          alistSet st.filenames2weights
            (shardName (label2path sp L)
              ((alistGet st.fileroots2ids (label2path sp L)).getD 0 + 1)) w⟩,
        f.index ++ [L],
        alistSet f.fs
          (shardName (label2path sp L)
            ((alistGet st.fileroots2ids (label2path sp L)).getD 0 + 1)) v⟩, none) := by
  subst hp
  simp only [OOCFrame.insert, hw, h0, h1]
  rfl

theorem insert_eq_dup_err (f : OOCFrame ℚ) (st : WState ℚ) (sp L : String) (v : List ℚ)
    (w : ℚ) (u u' : List ℚ) (hp : f.path = sp) (hw : f.writable = some st)
    (h0 : alistGet f.fs (shardName (label2path sp L) 0) = some u)
    (h1 : alistGet f.fs
      (shardName (label2path sp L)
        ((alistGet st.fileroots2ids (label2path sp L)).getD 0 + 1)) = some u') :
    f.insert L v w =
      (⟨f.path,
        some ⟨alistSet st.fileroots2ids (label2path sp L)
            ((alistGet st.fileroots2ids (label2path sp L)).getD 0 + 1),
          st.filenames2weights⟩,
        f.index ++ [L], f.fs⟩,
       some (.duplicateFile
         (shardName (label2path sp L)
           ((alistGet st.fileroots2ids (label2path sp L)).getD 0 + 1)))) := by
  subst hp
  simp only [OOCFrame.insert, hw, h0, h1]
  rfl

/-- A shard name whose file id is at least the label's current insertion
count is not on disk in an invariant state. -/
theorem insOk_fs_none (sp : String) (seq : List (String × List ℚ × ℚ)) (f : OOCFrame ℚ)
    (st : WState ℚ) (hinv : InsOk sp seq f st) (ls : List String) (n : Nat)
    (hsub : ∀ M ∈ seq.map Prod.fst, M ∈ ls) (hn : seq.length ≤ n)
    (hsep : SepRoots sp ls n) (L : String) (hL : L ∈ ls) (i : Nat) (hi : i ≤ n)
    (hcnt : cntOf seq L ≤ i) : alistGet f.fs (shardName (label2path sp L) i) = none := by
  rw [alistGet_eq_none_iff]
  intro hmem
  rcases hinv.fs_keys _ hmem with ⟨M, hM, i', hi', heq⟩
  by_cases hLM : L = M
  · subst hLM
    have := shardName_fid_inj heq
    omega
  · exact hsep L hL M (hsub M hM) hLM i (by omega) i'
      (by have := cntOf_le_length seq M; omega) heq

/-- Like `insOk_fs_none` for the weight map. -/
theorem insOk_ws_none (sp : String) (seq : List (String × List ℚ × ℚ)) (f : OOCFrame ℚ)
    (st : WState ℚ) (hinv : InsOk sp seq f st) (ls : List String) (n : Nat)
    (hsub : ∀ M ∈ seq.map Prod.fst, M ∈ ls) (hn : seq.length ≤ n)
    (hsep : SepRoots sp ls n) (L : String) (hL : L ∈ ls) (i : Nat) (hi : i ≤ n)
    (hcnt : cntOf seq L ≤ i) :
    alistGet st.filenames2weights (shardName (label2path sp L) i) = none := by
  rw [alistGet_eq_none_iff]
  intro hmem
  rcases hinv.ws_keys _ hmem with ⟨M, hM, i', hi', heq⟩
  by_cases hLM : L = M
  · subst hLM
    have := shardName_fid_inj heq
    omega
  · exact hsep L hL M (hsub M hM) hLM i (by omega) i'
      (by have := cntOf_le_length seq M; omega) heq

/-- One successful `insert` extends the invariant. -/
theorem insert_step (sp : String) (seq : List (String × List ℚ × ℚ)) (f : OOCFrame ℚ)
    (st : WState ℚ) (hinv : InsOk sp seq f st) (x : String × List ℚ × ℚ)
    (hsep : SepRoots sp ((seq ++ [x]).map Prod.fst) (seq.length + 1)) :
    ∃ f' st', f.insert x.1 x.2.1 x.2.2 = (f', none) ∧ InsOk sp (seq ++ [x]) f' st' := by
  obtain ⟨L, v, w⟩ := x
  have hsub : ∀ M ∈ seq.map Prod.fst, M ∈ (seq ++ [(L, v, w)]).map Prod.fst := by
    intro M hM
    rw [List.map_append]
    exact List.mem_append_left _ hM
  have hLmem : L ∈ (seq ++ [(L, v, w)]).map Prod.fst := by
    rw [List.map_append]
    exact List.mem_append_right _ (List.mem_cons_self _ _)
  have hmem_elim : ∀ M, M ∈ (seq ++ [(L, v, w)]).map Prod.fst →
      M ∈ seq.map Prod.fst ∨ M = L := by
    intro M hM
    rw [List.map_append, List.mem_append] at hM
    rcases hM with h | h
    · exact Or.inl h
    · exact Or.inr (by simpa using h)
  have hlen' : (seq ++ [(L, v, w)]).length = seq.length + 1 := by
    simp
  by_cases hc : cntOf seq L = 0
  · -- first insertion of this label: the canonical branch
    have hnew : L ∉ seq.map Prod.fst := fun hm => by
      have := cntOf_pos_of_mem seq L hm
      omega
    have h0 : alistGet f.fs (shardName (label2path sp L) 0) = none :=
      insOk_fs_none sp seq f st hinv _ _ hsub (by omega) hsep L hLmem 0 (by omega) (by omega)
    have hw0 : alistGet st.filenames2weights (shardName (label2path sp L) 0) = none :=
      insOk_ws_none sp seq f st hinv _ _ hsub (by omega) hsep L hLmem 0 (by omega) (by omega)
    have hvnil : vecsOf seq L = [] := by
      rw [vecsOf, occOf_nil_of_not_mem seq L hnew]
      rfl
    have hwnil : wtsOf seq L = [] := by
      rw [wtsOf, occOf_nil_of_not_mem seq L hnew]
      rfl
    have hvecs : vecsOf (seq ++ [(L, v, w)]) L = [v] := by
      have h1 := vecsOf_concat_self seq (L, v, w)
      rw [hvnil] at h1
      exact h1
    have hwts : wtsOf (seq ++ [(L, v, w)]) L = [w] := by
      have h1 := wtsOf_concat_self seq (L, v, w)
      rw [hwnil] at h1
      exact h1
    have hcnt' : cntOf (seq ++ [(L, v, w)]) L = 1 := by
      have h1 : cntOf (seq ++ [(L, v, w)]) L = cntOf seq L + 1 :=
        cntOf_concat_self seq (L, v, w)
      omega
    refine ⟨_, _, insert_eq_new f st sp L v w hinv.path_eq hinv.writable_eq h0,
      hinv.path_eq, rfl, ?_, ?_, hinv.rs_nodup, ?_, ?_, ?_, ?_, ?_, ?_, ?_⟩
    · rw [hinv.index_eq, List.map_append]
      rfl
    · exact nodup_keys_alistSet _ _ _ hinv.fs_nodup
    · -- fs_get
      intro M hM i hi
      rw [hlen'] at hi
      by_cases hML : M = L
      · subst hML
        by_cases hi0 : i = 0
        · subst hi0
          rw [alistGet_set_self, hvecs]
          rfl
        · rw [alistGet_set_ne _ _ (fun he => hi0 (shardName_fid_inj he)),
            insOk_fs_none sp seq f st hinv _ _ hsub (by omega) hsep M hLmem i (by omega)
              (by omega), hvecs]
          exact (List.getElem?_eq_none (by simp; omega)).symm
      · have hMseq : M ∈ seq.map Prod.fst := by
          rcases hmem_elim M hM with h | h
          · exact h
          · exact absurd h hML
        have hne : shardName (label2path sp M) i ≠ shardName (label2path sp L) 0 :=
          hsep M hM L hLmem hML i (by omega) 0 (by omega)
        rw [alistGet_set_ne _ _ hne, vecsOf_concat_ne seq (L, v, w) M hML]
        by_cases hil : i ≤ seq.length
        · exact hinv.fs_get M hMseq i hil
        · rw [insOk_fs_none sp seq f st hinv _ _ hsub (by omega) hsep M hM i (by omega)
            (by have := cntOf_le_length seq M; omega)]
          exact (List.getElem?_eq_none
            (by rw [length_vecsOf]; have := cntOf_le_length seq M; omega)).symm
    · -- fs_keys
      intro key hkey
      rcases mem_keys_alistSet _ _ _ _ hkey with hold | hnewk
      · rcases hinv.fs_keys key hold with ⟨M, hMseq, i, hic, heq⟩
        have hML : M ≠ L := fun he => hnew (he ▸ hMseq)
        refine ⟨M, hsub M hMseq, i, ?_, heq⟩
        rw [cntOf_concat_ne seq (L, v, w) M hML]
        exact hic
      · exact ⟨L, hLmem, 0, by rw [hcnt']; omega, hnewk⟩
    · -- ws_get
      intro M hM i hi
      rw [hlen'] at hi
      by_cases hML : M = L
      · subst hML
        by_cases hi0 : i = 0
        · subst hi0
          rw [alistGet_set_self, hwts]
          rfl
        · rw [alistGet_set_ne _ _ (fun he => hi0 (shardName_fid_inj he)),
            insOk_ws_none sp seq f st hinv _ _ hsub (by omega) hsep M hLmem i (by omega)
              (by omega), hwts]
          exact (List.getElem?_eq_none (by simp; omega)).symm
      · have hMseq : M ∈ seq.map Prod.fst := by
          rcases hmem_elim M hM with h | h
          · exact h
          · exact absurd h hML
        have hne : shardName (label2path sp M) i ≠ shardName (label2path sp L) 0 :=
          hsep M hM L hLmem hML i (by omega) 0 (by omega)
        rw [alistGet_set_ne _ _ hne, wtsOf_concat_ne seq (L, v, w) M hML]
        by_cases hil : i ≤ seq.length
        · exact hinv.ws_get M hMseq i hil
        · rw [insOk_ws_none sp seq f st hinv _ _ hsub (by omega) hsep M hM i (by omega)
            (by have := cntOf_le_length seq M; omega)]
          exact (List.getElem?_eq_none
            (by rw [length_wtsOf]; have := cntOf_le_length seq M; omega)).symm
    · -- ws_keys
      intro key hkey
      rcases mem_keys_alistSet _ _ _ _ hkey with hold | hnewk
      · rcases hinv.ws_keys key hold with ⟨M, hMseq, i, hic, heq⟩
        have hML : M ≠ L := fun he => hnew (he ▸ hMseq)
        refine ⟨M, hsub M hMseq, i, ?_, heq⟩
        rw [cntOf_concat_ne seq (L, v, w) M hML]
        exact hic
      · exact ⟨L, hLmem, 0, by rw [hcnt']; omega, hnewk⟩
    · -- ws_len
      have hk := keys_alistSet_of_not_mem st.filenames2weights (shardName (label2path sp L) 0) w
        (by rw [← alistGet_eq_none_iff]; exact hw0)
      have h1 := congrArg List.length hk
      rw [List.length_map, List.length_append, List.length_map, List.length_singleton] at h1
      rw [h1, hinv.ws_len, hlen']
    · -- rs_get
      intro M hM
      rcases hmem_elim M hM with hMseq | hMeq
      · have hML : M ≠ L := fun he => hnew (he ▸ hMseq)
        rw [cntOf_concat_ne seq (L, v, w) M hML]
        exact hinv.rs_get M hMseq
      · subst hMeq
        rw [hcnt', if_neg (by omega), alistGet_eq_none_iff]
        intro hmm
        rcases List.mem_map.mp hmm with ⟨e, he, hefst⟩
        rcases hinv.rs_keys e he with ⟨M', hM'seq, hroot, _, _⟩
        have hM'L : M ≠ M' := fun he2 => hnew (he2 ▸ hM'seq)
        exact hsep M hLmem M' (hsub M' hM'seq) hM'L 0 (by omega) 0 (by omega)
          (by rw [show label2path sp M = e.1 from hefst.symm, hroot])
    · -- rs_keys
      intro e he
      rcases hinv.rs_keys e he with ⟨M, hMseq, hroot, h2, hval⟩
      have hML : M ≠ L := fun hel => hnew (hel ▸ hMseq)
      exact ⟨M, hsub M hMseq, hroot, by rw [cntOf_concat_ne seq (L, v, w) M hML]; exact h2,
        by rw [cntOf_concat_ne seq (L, v, w) M hML]; exact hval⟩
  · -- repeated insertion: the suffixed branch
    have hcpos : 0 < cntOf seq L := by omega
    have hLseq : L ∈ seq.map Prod.fst := mem_of_cntOf_pos seq L hcpos
    have hlv : (vecsOf seq L).length = cntOf seq L := length_vecsOf seq L
    have hlw : (wtsOf seq L).length = cntOf seq L := length_wtsOf seq L
    have h0 : alistGet f.fs (shardName (label2path sp L) 0) = some ((vecsOf seq L).get ⟨0, by omega⟩) := by
      rw [hinv.fs_get L hLseq 0 (by omega)]
      exact List.getElem?_eq_getElem (by omega)
    have hfid : (alistGet st.fileroots2ids (label2path sp L)).getD 0 + 1 = cntOf seq L := by
      rw [hinv.rs_get L hLseq]
      by_cases h2 : 2 ≤ cntOf seq L
      · rw [if_pos h2]
        simp only [Option.getD_some]
        omega
      · rw [if_neg h2]
        simp only [Option.getD_none]
        omega
    have h1 : alistGet f.fs (shardName (label2path sp L)
        ((alistGet st.fileroots2ids (label2path sp L)).getD 0 + 1)) = none := by
      rw [hfid]
      exact insOk_fs_none sp seq f st hinv _ _ hsub (by omega) hsep L hLmem (cntOf seq L)
        (by have := cntOf_le_length seq L; omega) (by omega)
    have hwnone : alistGet st.filenames2weights
        (shardName (label2path sp L) (cntOf seq L)) = none :=
      insOk_ws_none sp seq f st hinv _ _ hsub (by omega) hsep L hLmem (cntOf seq L)
        (by have := cntOf_le_length seq L; omega) (by omega)
    have heq := insert_eq_dup f st sp L v w _ hinv.path_eq hinv.writable_eq h0 h1
    rw [hfid] at heq
    have hvecs : vecsOf (seq ++ [(L, v, w)]) L = vecsOf seq L ++ [v] :=
      vecsOf_concat_self seq (L, v, w)
    have hwts : wtsOf (seq ++ [(L, v, w)]) L = wtsOf seq L ++ [w] :=
      wtsOf_concat_self seq (L, v, w)
    have hcnt' : cntOf (seq ++ [(L, v, w)]) L = cntOf seq L + 1 :=
      cntOf_concat_self seq (L, v, w)
    have hmono : ∀ M, cntOf seq M ≤ cntOf (seq ++ [(L, v, w)]) M := by
      intro M
      by_cases hML : M = L
      · subst hML
        omega
      · rw [cntOf_concat_ne seq (L, v, w) M hML]
    refine ⟨_, _, heq,
      hinv.path_eq, rfl, ?_, ?_, ?_, ?_, ?_, ?_, ?_, ?_, ?_, ?_⟩
    · rw [hinv.index_eq, List.map_append]
      rfl
    · exact nodup_keys_alistSet _ _ _ hinv.fs_nodup
    · exact nodup_keys_alistSet _ _ _ hinv.rs_nodup
    · -- fs_get
      intro M hM i hi
      rw [hlen'] at hi
      by_cases hML : M = L
      · subst hML
        by_cases hieq : i = cntOf seq M
        · subst hieq
          rw [alistGet_set_self, hvecs, ← hlv, List.getElem?_concat_length]
        · rw [alistGet_set_ne _ _ (fun he => hieq (shardName_fid_inj he)), hvecs]
          by_cases hil : i < cntOf seq M
          · rw [hinv.fs_get M hLseq i (by have := cntOf_le_length seq M; omega),
              List.getElem?_append_left (by omega)]
          · rw [insOk_fs_none sp seq f st hinv _ _ hsub (by omega) hsep M hLmem i (by omega)
              (by omega)]
            exact (List.getElem?_eq_none (by rw [List.length_append]; simp; omega)).symm
      · have hMseq : M ∈ seq.map Prod.fst := by
          rcases hmem_elim M hM with h | h
          · exact h
          · exact absurd h hML
        have hne : shardName (label2path sp M) i ≠ shardName (label2path sp L) (cntOf seq L) :=
          hsep M hM L hLmem hML i (by omega) (cntOf seq L)
            (by have := cntOf_le_length seq L; omega)
        rw [alistGet_set_ne _ _ hne, vecsOf_concat_ne seq (L, v, w) M hML]
        by_cases hil : i ≤ seq.length
        · exact hinv.fs_get M hMseq i hil
        · rw [insOk_fs_none sp seq f st hinv _ _ hsub (by omega) hsep M hM i (by omega)
            (by have := cntOf_le_length seq M; omega)]
          exact (List.getElem?_eq_none
            (by rw [length_vecsOf]; have := cntOf_le_length seq M; omega)).symm
    · -- fs_keys
      intro key hkey
      rcases mem_keys_alistSet _ _ _ _ hkey with hold | hnewk
      · rcases hinv.fs_keys key hold with ⟨M, hMseq, i, hic, hkeq⟩
        exact ⟨M, hsub M hMseq, i, by have := hmono M; omega, hkeq⟩
      · exact ⟨L, hLmem, cntOf seq L, by omega, hnewk⟩
    · -- ws_get
      intro M hM i hi
      rw [hlen'] at hi
      by_cases hML : M = L
      · subst hML
        by_cases hieq : i = cntOf seq M
        · subst hieq
          rw [alistGet_set_self, hwts, ← hlw, List.getElem?_concat_length]
        · rw [alistGet_set_ne _ _ (fun he => hieq (shardName_fid_inj he)), hwts]
          by_cases hil : i < cntOf seq M
          · rw [hinv.ws_get M hLseq i (by have := cntOf_le_length seq M; omega),
              List.getElem?_append_left (by omega)]
          · rw [insOk_ws_none sp seq f st hinv _ _ hsub (by omega) hsep M hLmem i (by omega)
              (by omega)]
            exact (List.getElem?_eq_none (by rw [List.length_append]; simp; omega)).symm
      · have hMseq : M ∈ seq.map Prod.fst := by
          rcases hmem_elim M hM with h | h
          · exact h
          · exact absurd h hML
        have hne : shardName (label2path sp M) i ≠ shardName (label2path sp L) (cntOf seq L) :=
          hsep M hM L hLmem hML i (by omega) (cntOf seq L)
            (by have := cntOf_le_length seq L; omega)
        rw [alistGet_set_ne _ _ hne, wtsOf_concat_ne seq (L, v, w) M hML]
        by_cases hil : i ≤ seq.length
        · exact hinv.ws_get M hMseq i hil
        · rw [insOk_ws_none sp seq f st hinv _ _ hsub (by omega) hsep M hM i (by omega)
            (by have := cntOf_le_length seq M; omega)]
          exact (List.getElem?_eq_none
            (by rw [length_wtsOf]; have := cntOf_le_length seq M; omega)).symm
    · -- ws_keys
      intro key hkey
      rcases mem_keys_alistSet _ _ _ _ hkey with hold | hnewk
      · rcases hinv.ws_keys key hold with ⟨M, hMseq, i, hic, hkeq⟩
        exact ⟨M, hsub M hMseq, i, by have := hmono M; omega, hkeq⟩
      · exact ⟨L, hLmem, cntOf seq L, by omega, hnewk⟩
    · -- ws_len
      have hk := keys_alistSet_of_not_mem st.filenames2weights
        (shardName (label2path sp L) (cntOf seq L)) w
        (by rw [← alistGet_eq_none_iff]; exact hwnone)
      have hkl := congrArg List.length hk
      rw [List.length_map, List.length_append, List.length_map, List.length_singleton] at hkl
      rw [hkl, hinv.ws_len, hlen']
    · -- rs_get
      intro M hM
      by_cases hML : M = L
      · subst hML
        rw [alistGet_set_self, hcnt', if_pos (by omega)]
        simp
      · have hMseq : M ∈ seq.map Prod.fst := by
          rcases hmem_elim M hM with h | h
          · exact h
          · exact absurd h hML
        have hroots : label2path sp M ≠ label2path sp L := fun hr =>
          hsep M hM L hLmem hML 0 (by omega) 0 (by omega) (by rw [hr])
        rw [alistGet_set_ne _ _ hroots, cntOf_concat_ne seq (L, v, w) M hML]
        exact hinv.rs_get M hMseq
    · -- rs_keys
      intro e he
      rcases mem_alistSet_elim st.fileroots2ids (label2path sp L) (cntOf seq L) e
          hinv.rs_nodup he with ⟨hmem, hne1⟩ | heq1
      · rcases hinv.rs_keys e hmem with ⟨M, hMseq, hroot, h2, hval⟩
        have hML : M ≠ L := fun hel => hne1 (by rw [hroot, hel])
        exact ⟨M, hsub M hMseq, hroot, by rw [cntOf_concat_ne seq (L, v, w) M hML]; exact h2,
          by rw [cntOf_concat_ne seq (L, v, w) M hML]; exact hval⟩
      · refine ⟨L, hLmem, by rw [heq1], by omega, by rw [heq1, hcnt']; simp⟩

theorem insOk_nil (sp : String) : InsOk sp [] (mkNewFrame ℚ sp) ⟨[], []⟩ :=
  ⟨rfl, rfl, rfl, List.nodup_nil, List.nodup_nil,
    fun L hL => absurd hL (List.not_mem_nil L),
    fun key hk => absurd hk (List.not_mem_nil key),
    fun L hL => absurd hL (List.not_mem_nil L),
    fun key hk => absurd hk (List.not_mem_nil key),
    rfl,
    fun L hL => absurd hL (List.not_mem_nil L),
    fun e he => absurd he (List.not_mem_nil e)⟩

/-- Any insertion sequence whose labels have separated roots goes through
without an error, and the resulting store satisfies the invariant. -/
theorem insertAll_ok (sp : String) (seq : List (String × List ℚ × ℚ))
    (hsep : SepRoots sp (seq.map Prod.fst) seq.length) :
    ∃ f st, insertAllE (mkNewFrame ℚ sp) seq = .ok f ∧ InsOk sp seq f st := by
  induction seq using List.reverseRecOn with
  | nil => exact ⟨_, _, rfl, insOk_nil sp⟩
  | append_singleton p x ih =>
    rw [show (p ++ [x]).length = p.length + 1 from by simp] at hsep
    have hsepP : SepRoots sp (p.map Prod.fst) p.length :=
      hsep.mono (fun M hM => by rw [List.map_append]; exact List.mem_append_left _ hM)
        (by omega)
    rcases ih hsepP with ⟨f, st, hfold, hinv⟩
    rcases insert_step sp p f st hinv x hsep with ⟨f', st', hins, hinv'⟩
    refine ⟨f', st', ?_, hinv'⟩
    simp only [insertAllE] at hfold ⊢
    rw [List.foldlM_append, hfold]
    have h1 : (List.foldlM (fun g i => g.insertE i.1 i.2.1 i.2.2) f [x]) = Except.ok f' := by
      simp [OOCFrame.insertE, hins]
    exact h1

/-! ## The inner loop of `combine_weights` -/

theorem take_succ_eq {γ : Type _} (l : List γ) (k : Nat) (h : k < l.length) :
    l.take (k + 1) = l.take k ++ [l[k]] := by
  rw [List.take_succ, List.getElem?_eq_getElem h]
  rfl

theorem sum_take_succ (wl : List ℚ) (k : Nat) (h : k < wl.length) :
    (wl.take (k + 1)).sum = (wl.take k).sum + wl[k] := by
  rw [take_succ_eq wl k h, List.sum_append]
  simp

theorem take_one_eq {γ : Type _} (l : List γ) (h : 0 < l.length) : l.take 1 = [l[0]] := by
  rw [take_succ_eq l 0 h]
  rfl

theorem scaledSum_snoc (vs : List (List ℚ)) (wl : List ℚ) (v : List ℚ) (w : ℚ)
    (hlen : vs.length = wl.length) (hne : vs ≠ []) :
    scaledSum (vs ++ [v]) (wl ++ [w]) = vadd (scaledSum vs wl) (vmul v w) := by
  simp only [scaledSum]
  rw [List.zipWith_append _ _ _ _ _ hlen]
  have hz : List.zipWith vmul vs wl ≠ [] := by
    intro hnil
    have hl := congrArg List.length hnil
    rw [List.length_zipWith, hlen, min_self] at hl
    have hpos : 0 < wl.length := by rw [← hlen]; exact List.length_pos.mpr hne
    rw [List.length_nil] at hl
    omega
  rcases hzz : List.zipWith vmul vs wl with _ | ⟨h, t⟩
  · exact absurd hzz hz
  · simp [List.foldl_append]

/-- State of the `for fid in range(maxid + 1)` loop after `k` iterations:
the weight sum and weighted sum of the first `k` shards, with those shard
files deleted. -/
theorem combineStep_fold (wsl : List (String × ℚ)) (R : String) (vs : List (List ℚ))
    (wl : List ℚ) (fs : List (String × List ℚ)) (m : Nat)
    (hnodup : (fs.map Prod.fst).Nodup) (hm : vs.length = m + 1) (hw : wl.length = m + 1)
    (hws : ∀ i ≤ m, alistGet wsl (shardName R i) = wl[i]?)
    (hfs : ∀ i ≤ m, alistGet fs (shardName R i) = vs[i]?) :
    ∀ k, k ≤ m + 1 → ∃ fsk,
      (List.range k).foldlM (combineStep wsl R) ((0 : ℚ), ([] : List ℚ), fs) =
        .ok ((wl.take k).sum, scaledSum (vs.take k) (wl.take k), fsk) ∧
      (∀ j, j < k → alistGet fsk (shardName R j) = none) ∧
      (∀ j, k ≤ j → j ≤ m → alistGet fsk (shardName R j) = vs[j]?) ∧
      (∀ key, (∀ j, j < k → key ≠ shardName R j) → alistGet fsk key = alistGet fs key) ∧
      (∀ key ∈ fsk.map Prod.fst, key ∈ fs.map Prod.fst) ∧
      (fsk.map Prod.fst).Nodup := by
  intro k
  induction k with
  | zero =>
    intro _
    refine ⟨fs, rfl, ?_, ?_, ?_, ?_, hnodup⟩
    · intro j hj
      exact absurd hj (by omega)
    · intro j _ hj
      exact hfs j hj
    · intro key _
      rfl
    · intro key hk
      exact hk
  | succ k ihk =>
    intro hk1
    rcases ihk (by omega) with ⟨fsk, hfold, hnone, hkeep, hother, hsubk, hnod⟩
    have hkm : k ≤ m := by omega
    have hwsk : alistGet wsl (shardName R k) = some (wl.get ⟨k, by omega⟩) := by
      rw [hws k hkm]
      exact List.getElem?_eq_getElem (by omega)
    have hfsk : alistGet fsk (shardName R k) = some (vs.get ⟨k, by omega⟩) := by
      rw [hkeep k (le_refl k) hkm]
      exact List.getElem?_eq_getElem (by omega)
    have hstep : combineStep wsl R ((wl.take k).sum, scaledSum (vs.take k) (wl.take k), fsk) k =
        .ok ((wl.take (k + 1)).sum, scaledSum (vs.take (k + 1)) (wl.take (k + 1)),
          alistRemove fsk (shardName R k)) := by
      simp only [combineStep, hwsk, hfsk]
      rw [sum_take_succ wl k (by omega)]
      by_cases k0 : k = 0
      · subst k0
        rw [if_pos rfl, take_one_eq vs (by omega), take_one_eq wl (by omega)]
        rfl
      · rw [if_neg k0, take_succ_eq vs k (by omega), take_succ_eq wl k (by omega),
          scaledSum_snoc _ _ _ _
            (by rw [List.length_take, List.length_take]; omega)
            (by
              intro hnil
              have hlt := congrArg List.length hnil
              rw [List.length_take, List.length_nil] at hlt
              omega)]
        rfl
    refine ⟨alistRemove fsk (shardName R k), ?_, ?_, ?_, ?_, ?_,
      nodup_keys_alistRemove _ _ hnod⟩
    · rw [List.range_succ, List.foldlM_append, hfold]
      have h1 : List.foldlM (combineStep wsl R)
          ((wl.take k).sum, scaledSum (vs.take k) (wl.take k), fsk) [k] =
          .ok ((wl.take (k + 1)).sum, scaledSum (vs.take (k + 1)) (wl.take (k + 1)),
            alistRemove fsk (shardName R k)) := by
        simp [hstep]
      exact h1
    · intro j hj
      by_cases hjk : j = k
      · subst hjk
        exact alistGet_remove_self fsk (shardName R j)
      · rw [alistGet_remove_ne fsk (fun he => hjk (shardName_fid_inj he))]
        exact hnone j (by omega)
    · intro j hjk hjm
      rw [alistGet_remove_ne fsk (fun he => (by omega : j ≠ k) (shardName_fid_inj he))]
      exact hkeep j (by omega) hjm
    · intro key hkey
      rw [alistGet_remove_ne fsk (hkey k (by omega))]
      exact hother key (fun j hj => hkey j (by omega))
    · intro key hk
      exact hsubk key ((mem_keys_alistRemove fsk (shardName R k) key).mp hk).1

/-- `combineRoot` deletes every shard of the root and stores the weighted
average under the canonical name, leaving every other file alone. -/
theorem combineRoot_spec (wsl : List (String × ℚ)) (R : String) (vs : List (List ℚ))
    (wl : List ℚ) (fs : List (String × List ℚ)) (m : Nat)
    (hnodup : (fs.map Prod.fst).Nodup) (hm : vs.length = m + 1) (hw : wl.length = m + 1)
    (hws : ∀ i ≤ m, alistGet wsl (shardName R i) = wl[i]?)
    (hfs : ∀ i ≤ m, alistGet fs (shardName R i) = vs[i]?) :
    ∃ fsR, combineRoot wsl fs (R, m) = .ok fsR ∧
      alistGet fsR (shardName R 0) = some ((scaledSum vs wl).map (· / wl.sum)) ∧
      (∀ i, 1 ≤ i → i ≤ m → alistGet fsR (shardName R i) = none) ∧
      (∀ key, (∀ j, j ≤ m → key ≠ shardName R j) → alistGet fsR key = alistGet fs key) ∧
      (∀ key ∈ fsR.map Prod.fst, key ∈ fs.map Prod.fst ∨ key = shardName R 0) ∧
      (fsR.map Prod.fst).Nodup := by
  rcases combineStep_fold wsl R vs wl fs m hnodup hm hw hws hfs (m + 1) (le_refl _) with
    ⟨fsm, hfold, hnone, _, hother, hsub, hnod⟩
  rw [List.take_of_length_le (by omega), List.take_of_length_le (by omega)] at hfold
  refine ⟨alistSet fsm (shardName R 0) ((scaledSum vs wl).map (· / wl.sum)),
    ?_, alistGet_set_self _ _ _, ?_, ?_, ?_, nodup_keys_alistSet _ _ _ hnod⟩
  · simp only [combineRoot]
    rw [hfold]
    rfl
  · intro i h1 hm2
    rw [alistGet_set_ne _ _ (fun he => (by omega : i ≠ 0) (shardName_fid_inj he))]
    exact hnone i (by omega)
  · intro key hkey
    rw [alistGet_set_ne _ _ (hkey 0 (by omega))]
    exact hother key (fun j hj => hkey j (by omega))
  · intro key hk
    rcases mem_keys_alistSet _ _ _ _ hk with hold | hnewk
    · exact Or.inl (hsub key hold)
    · exact Or.inr hnewk

/-- The outer loop of `combine_weights`: folding `combineRoot` over the
remaining duplicated roots turns every raw root into its combined
canonical file and touches nothing else. -/
theorem combine_fold (sp : String) (seq : List (String × List ℚ × ℚ))
    (wsl : List (String × ℚ))
    (hsep : SepRoots sp (seq.map Prod.fst) seq.length)
    (hws : ∀ L ∈ seq.map Prod.fst, ∀ i ≤ seq.length,
      alistGet wsl (shardName (label2path sp L) i) = (wtsOf seq L)[i]?) :
    ∀ rem : List (String × Nat), ∀ fs0 : List (String × List ℚ),
      (rem.map Prod.fst).Nodup →
      (∀ e ∈ rem, ∃ L ∈ seq.map Prod.fst,
        e.1 = label2path sp L ∧ 2 ≤ cntOf seq L ∧ e.2 = cntOf seq L - 1) →
      (fs0.map Prod.fst).Nodup →
      (∀ L ∈ seq.map Prod.fst,
        (2 ≤ cntOf seq L ∧ label2path sp L ∈ rem.map Prod.fst) ∨
        (alistGet fs0 (shardName (label2path sp L) 0) = some (combinedVec seq L) ∧
          ∀ i, 1 ≤ i → i ≤ seq.length →
            alistGet fs0 (shardName (label2path sp L) i) = none)) →
      (∀ L ∈ seq.map Prod.fst, label2path sp L ∈ rem.map Prod.fst →
        ∀ i ≤ seq.length,
          alistGet fs0 (shardName (label2path sp L) i) = (vecsOf seq L)[i]?) →
      (∀ key ∈ fs0.map Prod.fst, ∃ L ∈ seq.map Prod.fst,
        key = shardName (label2path sp L) 0 ∨
        (label2path sp L ∈ rem.map Prod.fst ∧
          ∃ i < cntOf seq L, key = shardName (label2path sp L) i)) →
      ∃ fs1, rem.foldlM (combineRoot wsl) fs0 = .ok fs1 ∧
        (fs1.map Prod.fst).Nodup ∧
        (∀ L ∈ seq.map Prod.fst,
          alistGet fs1 (shardName (label2path sp L) 0) = some (combinedVec seq L) ∧
          ∀ i, 1 ≤ i → i ≤ seq.length →
            alistGet fs1 (shardName (label2path sp L) i) = none) ∧
        (∀ key ∈ fs1.map Prod.fst, ∃ L ∈ seq.map Prod.fst,
          key = shardName (label2path sp L) 0) := by
  intro rem
  induction rem with
  | nil =>
    intro fs0 _ _ hnodup hdone _ hkeys
    refine ⟨fs0, rfl, hnodup, ?_, ?_⟩
    · intro L hL
      rcases hdone L hL with ⟨_, habs⟩ | hok
      · exact absurd habs (List.not_mem_nil _)
      · exact hok
    · intro key hk
      rcases hkeys key hk with ⟨L, hL, hcan | ⟨habs, _⟩⟩
      · exact ⟨L, hL, hcan⟩
      · exact absurd habs (List.not_mem_nil _)
  | cons e rem' ih =>
    intro fs0 hremnd hementries hnodup hdone hraw hkeys
    rcases hementries e (List.mem_cons_self _ _) with ⟨L0, hL0, hroot, hcnt2, hval⟩
    obtain ⟨R0, m0⟩ := e
    dsimp only at hroot hval
    subst hroot
    subst hval
    rw [List.map_cons] at hremnd
    have hnotin : label2path sp L0 ∉ rem'.map Prod.fst := (List.nodup_cons.mp hremnd).1
    have hnd' : (rem'.map Prod.fst).Nodup := (List.nodup_cons.mp hremnd).2
    have hcl : cntOf seq L0 ≤ seq.length := cntOf_le_length seq L0
    have hrootmem : label2path sp L0 ∈
        ((label2path sp L0, cntOf seq L0 - 1) :: rem').map Prod.fst := by
      rw [List.map_cons]
      exact List.mem_cons_self _ _
    have hrooteq : ∀ L ∈ seq.map Prod.fst, label2path sp L = label2path sp L0 → L = L0 := by
      intro L hL hre
      by_contra hne
      exact hsep L hL L0 hL0 hne 0 (by omega) 0 (by omega) (by rw [hre])
    rcases combineRoot_spec wsl (label2path sp L0) (vecsOf seq L0) (wtsOf seq L0) fs0
        (cntOf seq L0 - 1) hnodup (by rw [length_vecsOf]; omega) (by rw [length_wtsOf]; omega)
        (fun i hi => hws L0 hL0 i (by omega))
        (fun i hi => hraw L0 hL0 hrootmem i (by omega)) with
      ⟨fsR, hcombR, hcanR, hsfxR, hotherR, hkeysR, hnodR⟩
    have havg : combinedVec seq L0 =
        (scaledSum (vecsOf seq L0) (wtsOf seq L0)).map (· / (wtsOf seq L0).sum) := by
      rw [combinedVec, if_pos hcnt2]
    -- facts about what stays untouched for labels other than L0
    have hpreserve : ∀ L ∈ seq.map Prod.fst, L ≠ L0 → ∀ i ≤ seq.length,
        alistGet fsR (shardName (label2path sp L) i) =
          alistGet fs0 (shardName (label2path sp L) i) := by
      intro L hL hne i hi
      exact hotherR _ (fun j hj =>
        hsep L hL L0 hL0 hne i (by omega) j (by omega))
    -- the fresh facts for L0 itself
    have hL0canon : alistGet fsR (shardName (label2path sp L0) 0) =
        some (combinedVec seq L0) := by
      rw [hcanR, havg]
    have hL0sfx : ∀ i, 1 ≤ i → i ≤ seq.length →
        alistGet fsR (shardName (label2path sp L0) i) = none := by
      intro i h1 hi
      by_cases him : i ≤ cntOf seq L0 - 1
      · exact hsfxR i h1 him
      · rw [hotherR _ (fun j hj => fun he => (by omega : i ≠ j) (shardName_fid_inj he)),
          hraw L0 hL0 hrootmem i hi]
        exact List.getElem?_eq_none (by rw [length_vecsOf]; omega)
    rcases ih fsR hnd'
      (fun e' he' => hementries e' (List.mem_cons_of_mem _ he'))
      hnodR
      (by
        intro L hL
        by_cases hLL0 : L = L0
        · subst hLL0
          exact Or.inr ⟨hL0canon, hL0sfx⟩
        · rcases hdone L hL with ⟨h2, hmem⟩ | ⟨hok1, hok2⟩
          · rw [List.map_cons, List.mem_cons] at hmem
            rcases hmem with hhead | htail
            · exact absurd (hrooteq L hL hhead) hLL0
            · exact Or.inl ⟨h2, htail⟩
          · refine Or.inr ⟨?_, ?_⟩
            · rw [hpreserve L hL hLL0 0 (by omega)]
              exact hok1
            · intro i h1 hi
              rw [hpreserve L hL hLL0 i hi]
              exact hok2 i h1 hi)
      (by
        intro L hL hmem i hi
        have hLL0 : L ≠ L0 := fun he => hnotin (he ▸ hmem)
        rw [hpreserve L hL hLL0 i hi]
        exact hraw L hL (by rw [List.map_cons]; exact List.mem_cons_of_mem _ hmem) i hi)
      (by
        intro key hk
        rcases hkeysR key hk with hold | hcanKey
        · rcases hkeys key hold with ⟨L, hL, hcase⟩
          rcases hcase with hcan | ⟨hmem, i, hic, hkeyeq⟩
          · exact ⟨L, hL, Or.inl hcan⟩
          · rw [List.map_cons, List.mem_cons] at hmem
            rcases hmem with hhead | htail
            · have hLL0 : L = L0 := hrooteq L hL hhead
              subst hLL0
              by_cases hi0 : i = 0
              · exact ⟨L, hL, Or.inl (by rw [hkeyeq, hi0])⟩
              · exfalso
                have hnone2 : alistGet fsR key = none := by
                  rw [hkeyeq]
                  exact hsfxR i (by omega) (by omega)
                exact (alistGet_eq_none_iff fsR key).mp hnone2 hk
            · exact ⟨L, hL, Or.inr ⟨htail, i, hic, hkeyeq⟩⟩
        · exact ⟨L0, hL0, Or.inl hcanKey⟩) with
      ⟨fs1, hfold', hnod1, hdone1, hkeys1⟩
    refine ⟨fs1, ?_, hnod1, hdone1, hkeys1⟩
    rw [List.foldlM_cons, hcombR]
    exact hfold'

/-- `combine_weights` succeeds on any store built by a separated insertion
sequence, and leaves it in the combined shape. -/
theorem combine_ok (sp : String) (seq : List (String × List ℚ × ℚ)) (f : OOCFrame ℚ)
    (st : WState ℚ) (hinv : InsOk sp seq f st)
    (hsep : SepRoots sp (seq.map Prod.fst) seq.length) (hne : seq ≠ []) :
    ∃ g, f.combine_weights = .ok g ∧ CombinedShape sp seq g := by
  have hwsne : st.filenames2weights.isEmpty = false := by
    cases hws : st.filenames2weights with
    | nil =>
      exfalso
      have hl := hinv.ws_len
      rw [hws] at hl
      rcases seq with _ | ⟨x, t⟩
      · exact hne rfl
      · simp at hl
    | cons a b => rfl
  have hdone0 : ∀ L ∈ seq.map Prod.fst,
      (2 ≤ cntOf seq L ∧ label2path sp L ∈ st.fileroots2ids.map Prod.fst) ∨
      (alistGet f.fs (shardName (label2path sp L) 0) = some (combinedVec seq L) ∧
        ∀ i, 1 ≤ i → i ≤ seq.length →
          alistGet f.fs (shardName (label2path sp L) i) = none) := by
    intro L hL
    by_cases h2 : 2 ≤ cntOf seq L
    · left
      refine ⟨h2, ?_⟩
      have hg := hinv.rs_get L hL
      rw [if_pos h2] at hg
      exact List.mem_map_of_mem Prod.fst (alistGet_some_mem _ _ _ hg)
    · right
      have hc1 : cntOf seq L = 1 := by
        have := cntOf_pos_of_mem seq L hL
        omega
      have hlen1 : (vecsOf seq L).length = 1 := by rw [length_vecsOf]; omega
      constructor
      · rw [hinv.fs_get L hL 0 (by omega), combinedVec, if_neg h2,
          List.getD_eq_getElem?_getD, List.getElem?_eq_getElem (by omega)]
        rfl
      · intro i h1 hi
        rw [hinv.fs_get L hL i hi]
        exact List.getElem?_eq_none (by omega)
  have hkeys0 : ∀ key ∈ f.fs.map Prod.fst, ∃ L ∈ seq.map Prod.fst,
      key = shardName (label2path sp L) 0 ∨
      (label2path sp L ∈ st.fileroots2ids.map Prod.fst ∧
        ∃ i < cntOf seq L, key = shardName (label2path sp L) i) := by
    intro key hk
    rcases hinv.fs_keys key hk with ⟨L, hL, i, hic, hkeq⟩
    by_cases hi0 : i = 0
    · exact ⟨L, hL, Or.inl (by rw [hkeq, hi0])⟩
    · refine ⟨L, hL, Or.inr ⟨?_, i, hic, hkeq⟩⟩
      have h2 : 2 ≤ cntOf seq L := by omega
      have hg := hinv.rs_get L hL
      rw [if_pos h2] at hg
      exact List.mem_map_of_mem Prod.fst (alistGet_some_mem _ _ _ hg)
  rcases combine_fold sp seq st.filenames2weights hsep hinv.ws_get st.fileroots2ids f.fs
      hinv.rs_nodup hinv.rs_keys hinv.fs_nodup hdone0
      (fun L hL _ i hi => hinv.fs_get L hL i hi) hkeys0 with
    ⟨fs1, hfold, hnod1, hdone1, hkeys1⟩
  refine ⟨⟨f.path, none, f.index, fs1⟩, ?_, hinv.path_eq, rfl, hinv.index_eq, hnod1,
    fun L hL => (hdone1 L hL).1, fun L hL => (hdone1 L hL).2, hkeys1⟩
  simp only [OOCFrame.combine_weights, hinv.writable_eq, hwsne, Bool.false_eq_true,
    if_false]
  rw [hfold]
  rfl

/-- Insert-then-combine on a fresh store: success and resulting shape. -/
theorem runStore_ok (sp : String) (seq : List (String × List ℚ × ℚ))
    (hsep : SepRoots sp (seq.map Prod.fst) seq.length) (hne : seq ≠ []) :
    ∃ g, runStore sp seq = .ok g ∧ CombinedShape sp seq g := by
  rcases insertAll_ok sp seq hsep with ⟨f, st, hfold, hinv⟩
  rcases combine_ok sp seq f st hinv hsep hne with ⟨g, hcomb, hshape⟩
  refine ⟨g, ?_, hshape⟩
  simp only [runStore]
  rw [hfold]
  exact hcomb

/-- When every label of the list is one fixed label, root separation is
vacuous. -/
theorem sepRoots_const (sp L : String) (ls : List String) (h : ∀ M ∈ ls, M = L) (n : Nat) :
    SepRoots sp ls n := fun A hA B hB hne _ _ _ _ =>
  absurd ((h A hA).trans (h B hB).symm) hne

theorem zipWith_map_same {γ δ ε ζ : Type} (f : δ → ε → ζ) (g : γ → δ) (h : γ → ε)
    (l : List γ) : List.zipWith f (l.map g) (l.map h) = l.map (fun x => f (g x) (h x)) := by
  induction l with
  | nil => rfl
  | cons a t ih => simp [ih]

theorem occOf_map_const (L : String) (pairs : List (List ℚ × ℚ)) :
    occOf (pairs.map (fun p => (L, p.1, p.2))) L = pairs.map (fun p => (L, p.1, p.2)) := by
  rw [occOf, List.filter_eq_self]
  intro a ha
  rcases List.mem_map.mp ha with ⟨p, _, rfl⟩
  simp

theorem labels_map_const (L : String) (pairs : List (List ℚ × ℚ)) :
    ∀ M ∈ (pairs.map (fun p => (L, p.1, p.2))).map Prod.fst, M = L := by
  intro M hM
  rcases List.mem_map.mp hM with ⟨a, ha, rfl⟩
  rcases List.mem_map.mp ha with ⟨p, _, rfl⟩
  rfl

/-- For a single-label insertion sequence, the combined vector is exactly
the spec's weighted average `Σ(v_i * w_i) / Σ(w_i)`. -/
theorem combinedVec_eq_specAvg (L : String) (d : Nat) (pairs : List (List ℚ × ℚ))
    (hne : pairs ≠ []) (hlen : ∀ p ∈ pairs, p.1.length = d)
    (hpos : ∀ p ∈ pairs, 0 < p.2) :
    combinedVec (pairs.map (fun p => (L, p.1, p.2))) L = specWeightedAvg d pairs := by
  match pairs, hne, hlen, hpos with
  | [p], _, hlen, hpos =>
    have hw : p.2 ≠ 0 := ne_of_gt (hpos p (List.mem_cons_self _ _))
    have hc1 : cntOf (List.map (fun p => (L, p.1, p.2)) [p]) L = 1 := by
      rw [cntOf, occOf_map_const]
      rfl
    have hv : vecsOf (List.map (fun p => (L, p.1, p.2)) [p]) L = [p.1] := by
      rw [vecsOf, occOf_map_const]
      rfl
    rw [combinedVec, hc1, if_neg (by omega), hv, specWeightedAvg]
    simp only [List.map_cons, List.map_nil, List.foldl_cons, List.foldl_nil, List.sum_cons,
      List.sum_nil, add_zero, List.getD_cons_zero]
    rw [vadd_replicate_zero (vmul p.1 p.2) d
      (by rw [length_vmul]; exact hlen p (List.mem_cons_self _ _)), vmul, List.map_map]
    have hfun : ((· / p.2) ∘ (· * p.2)) = (id : ℚ → ℚ) :=
      funext fun x => mul_div_cancel_right₀ x hw
    rw [hfun, List.map_id]
  | p :: q :: u, _, hlen, hpos =>
    have hc2 : cntOf (List.map (fun p => (L, p.1, p.2)) (p :: q :: u)) L = u.length + 2 := by
      rw [cntOf, occOf_map_const]
      simp
    have hv : vecsOf (List.map (fun p => (L, p.1, p.2)) (p :: q :: u)) L =
        (p :: q :: u).map Prod.fst := by
      rw [vecsOf, occOf_map_const, List.map_map]
      rfl
    have hw2 : wtsOf (List.map (fun p => (L, p.1, p.2)) (p :: q :: u)) L =
        (p :: q :: u).map Prod.snd := by
      rw [wtsOf, occOf_map_const, List.map_map]
      rfl
    rw [combinedVec, hc2, if_pos (by omega), hv, hw2, specWeightedAvg]
    congr 1
    rw [scaledSum, zipWith_map_same]
    simp only [List.map_cons, List.foldl_cons]
    rw [vadd_replicate_zero (vmul p.1 p.2) d
      (by rw [length_vmul]; exact hlen p (List.mem_cons_self _ _))]

theorem specWeightedAvg_singleton (d : Nat) (v : List ℚ) (w : ℚ) (hlen : v.length = d)
    (hw : w ≠ 0) : specWeightedAvg d [(v, w)] = v := by
  rw [specWeightedAvg]
  simp only [List.map_cons, List.map_nil, List.foldl_cons, List.foldl_nil, List.sum_cons,
    List.sum_nil, add_zero]
  rw [vadd_replicate_zero (vmul v w) d (by rw [length_vmul]; exact hlen), vmul, List.map_map]
  have hfun : ((· / w) ∘ (· * w)) = (id : ℚ → ℚ) := funext fun x => mul_div_cancel_right₀ x hw
  rw [hfun, List.map_id]

/-! ## The claims -/

/-- C1: for every sequence of `n ≥ 1` insertions sharing one label, with
positive weights and vectors of equal length `d`, the whole pipeline
(fresh store, insertions, `combine_weights`) succeeds, the single stored
vector for that label is the weighted average `Σ(v_i * w_i) / Σ(w_i)`, the
stored value is independent of the order in which the insertions were
made (any permutation of the pair list produces the same canonical file
content), and a label inserted exactly once keeps its vector unchanged
(the average collapses to `v` for a one-element sequence). -/
theorem claim_C1 (sp L : String) (d : Nat) (pairs : List (List ℚ × ℚ))
    (hne : pairs ≠ []) (hlen : ∀ p ∈ pairs, p.1.length = d)
    (hpos : ∀ p ∈ pairs, 0 < p.2) :
    (∀ pairs2 : List (List ℚ × ℚ), pairs.Perm pairs2 →
      ∃ g, runStore sp (pairs2.map (fun p => (L, p.1, p.2))) = .ok g ∧
        alistGet g.fs (shardName (label2path sp L) 0) = some (specWeightedAvg d pairs) ∧
        ∀ key, key ∈ g.fs.map Prod.fst ↔ key = shardName (label2path sp L) 0) ∧
    (∀ v w, pairs = [(v, w)] → specWeightedAvg d pairs = v) := by
  constructor
  · intro pairs2 hperm
    have hlen2 : ∀ p ∈ pairs2, p.1.length = d := fun p hp => hlen p (hperm.symm.subset hp)
    have hpos2 : ∀ p ∈ pairs2, 0 < p.2 := fun p hp => hpos p (hperm.symm.subset hp)
    have hne2 : pairs2 ≠ [] := by
      intro h
      rw [h] at hperm
      exact hne hperm.eq_nil
    have hconst := labels_map_const L pairs2
    have hsep : SepRoots sp ((pairs2.map (fun p => (L, p.1, p.2))).map Prod.fst)
        (pairs2.map (fun p => (L, p.1, p.2))).length :=
      sepRoots_const sp L _ hconst _
    have hseqne : pairs2.map (fun p => (L, p.1, p.2)) ≠ [] := by
      intro h
      exact hne2 (List.map_eq_nil_iff.mp h)
    rcases runStore_ok sp (pairs2.map (fun p => (L, p.1, p.2))) hsep hseqne with
      ⟨g, hrun, hshape⟩
    have hLmem : L ∈ (pairs2.map (fun p => (L, p.1, p.2))).map Prod.fst := by
      rcases List.exists_mem_of_ne_nil _ hseqne with ⟨x, hx⟩
      have hx1 := List.mem_map_of_mem Prod.fst hx
      rwa [labels_map_const L pairs2 x.1 hx1] at hx1
    refine ⟨g, hrun, ?_, ?_⟩
    · rw [hshape.canon_get L hLmem, combinedVec_eq_specAvg L d pairs2 hne2 hlen2 hpos2,
        specWeightedAvg_perm d pairs pairs2 hlen hperm]
    · intro key
      constructor
      · intro hk
        rcases hshape.fs_keys key hk with ⟨M, hM, hkeq⟩
        rw [hkeq, hconst M hM]
      · intro hk
        rw [hk]
        exact (alistGet_isSome_iff g.fs _).mp (by rw [hshape.canon_get L hLmem]; rfl)
  · intro v w hpw
    have hw : w ≠ 0 := by
      have := hpos (v, w) (by rw [hpw]; exact List.mem_cons_self _ _)
      exact ne_of_gt this
    have hvd : v.length = d := hlen (v, w) (by rw [hpw]; exact List.mem_cons_self _ _)
    rw [hpw]
    exact specWeightedAvg_singleton d v w hvd hw

theorem claim_C1_witness :
    ∃ g, runStore "st"
        (([([1, 1], 1), ([3, 1], 2)] : List (List ℚ × ℚ)).map
          (fun p => ("/c/en/cat", p.1, p.2))) = .ok g ∧
      alistGet g.fs (shardName (label2path "st" "/c/en/cat") 0) =
        some (specWeightedAvg 2 [([1, 1], 1), ([3, 1], 2)]) ∧
      ∀ key, key ∈ g.fs.map Prod.fst ↔ key = shardName (label2path "st" "/c/en/cat") 0 :=
  (claim_C1 "st" "/c/en/cat" 2 [([1, 1], 1), ([3, 1], 2)] (by decide) (by decide)
    (by decide)).1 _ (List.Perm.refl _)

/-- C2: the claim asserts that after `combine_weights` the index holds one
entry per distinct inserted label.  The code keeps the full insertion
sequence: `disable_insert` wraps `_index` in `pd.Index`, which preserves
duplicates, so inserting `/c/en/cat` twice leaves an index of size two
(one distinct label).  This evaluation exhibits the failing input. -/
theorem claim_C2_eval :
    (runStore "st" catSeq).toOption.map (fun g => g.index) =
      some ["/c/en/cat", "/c/en/cat"] ∧
    ["/c/en/cat", "/c/en/cat"].dedup.length = 1 := by decide

/-- C6: the claim asserts that after the column L1 pass every column sums
to one.  Because the index still holds the duplicated label twice (the C2
defect), the pass adds the combined `cat` vector twice into `col_norms`
and divides the file by it twice: the store ends with the single vector
`[3/28, 1/4]`, whose column sums are far from one. -/
theorem claim_C6_eval :
    ((runStore "st" catSeq).toOption.bind
      (fun g => g.l1_normalize_columns.toOption)).map (fun g => g.fs) =
      some [(shardName (label2path "st" "/c/en/cat") 0, [3 / 28, 1 / 4])] ∧
    (3 / 28 : ℚ) ≠ 1 ∧ (1 / 4 : ℚ) ≠ 1 := by decide

/-- C4: on every frozen store — `writable = none`, which is how both a
completed `combine_weights` and construction against an existing path
leave the store — `insert` raises the disabled-insert `ValueError` and
returns the store unchanged: no file is written, no index entry is added.
The second and third conjuncts show the two freezing routes both produce
`writable = none`. -/
theorem claim_C4 :
    (∀ (f : OOCFrame ℚ) (L : String) (v : List ℚ) (w : ℚ), f.writable = none →
      f.insert L v w = (f, some .insertDisabled)) ∧
    (∀ (f g : OOCFrame ℚ), f.combine_weights = .ok g → g.writable = none) ∧
    (∀ (sp : String) (fpaths : List String) (fs : List (String × List ℚ))
      (h : OOCFrame ℚ), initExisting ℚ sp fpaths fs = some h → h.writable = none) := by
  refine ⟨?_, ?_, ?_⟩
  · intro f L v w hw
    simp only [OOCFrame.insert, hw]
  · intro f g hc
    cases hwf : f.writable with
    | none =>
      simp only [OOCFrame.combine_weights, hwf] at hc
      cases hc
    | some st =>
      simp only [OOCFrame.combine_weights, hwf] at hc
      by_cases he : st.filenames2weights.isEmpty = true
      · rw [if_pos he] at hc
        cases hc
      · rw [if_neg he] at hc
        cases hfold : st.fileroots2ids.foldlM (combineRoot st.filenames2weights) f.fs with
        | error e =>
          rw [hfold] at hc
          cases hc
        | ok fs1 =>
          rw [hfold] at hc
          have hg : OOCFrame.disable_insert { f with fs := fs1 } = g := Except.ok.inj hc
          rw [← hg]
          rfl
  · intro sp fpaths fs h hinit
    cases hmm : (fpaths.filter (fun p => strEndsWith p ".npy")).mapM filepath2label with
    | none =>
      simp only [initExisting, hmm] at hinit
      cases hinit
    | some labels =>
      simp only [initExisting, hmm] at hinit
      have hh := Option.some.inj hinit
      rw [← hh]

theorem claim_C4_witness :
    OOCFrame.insert (α := ℚ) ⟨"st", none, [], []⟩ "/c/en/dog" [1] 1 =
      (⟨"st", none, [], []⟩, some .insertDisabled) :=
  claim_C4.1 ⟨"st", none, [], []⟩ "/c/en/dog" [1] 1 rfl

/-- C5: after a successful run of insertions (with separated path roots,
as the spec's data model assumes) followed by `combine_weights`, every
inserted label has its canonical unsuffixed file on disk, no suffixed
shard file of any allocated id remains, every on-disk file is the
canonical file of some inserted label, and file names are not duplicated:
exactly one file per inserted path root. -/
theorem claim_C5 (sp : String) (seq : List (String × List ℚ × ℚ))
    (hsep : SepRoots sp (seq.map Prod.fst) seq.length) (hne : seq ≠ []) :
    ∃ g, runStore sp seq = .ok g ∧
      (∀ L ∈ seq.map Prod.fst,
        (alistGet g.fs (shardName (label2path sp L) 0)).isSome = true) ∧
      (∀ L ∈ seq.map Prod.fst, ∀ i, 1 ≤ i → i ≤ seq.length →
        alistGet g.fs (shardName (label2path sp L) i) = none) ∧
      (∀ key ∈ g.fs.map Prod.fst, ∃ L ∈ seq.map Prod.fst,
        key = shardName (label2path sp L) 0) ∧
      (g.fs.map Prod.fst).Nodup := by
  rcases runStore_ok sp seq hsep hne with ⟨g, hrun, hshape⟩
  exact ⟨g, hrun, fun L hL => by rw [hshape.canon_get L hL]; rfl,
    hshape.sfx_none, hshape.fs_keys, hshape.fs_nodup⟩

theorem claim_C5_witness :
    ∃ g, runStore "st" zooSeq = .ok g ∧
      (∀ L ∈ zooSeq.map Prod.fst,
        (alistGet g.fs (shardName (label2path "st" L) 0)).isSome = true) ∧
      (∀ L ∈ zooSeq.map Prod.fst, ∀ i, 1 ≤ i → i ≤ zooSeq.length →
        alistGet g.fs (shardName (label2path "st" L) i) = none) ∧
      (∀ key ∈ g.fs.map Prod.fst, ∃ L ∈ zooSeq.map Prod.fst,
        key = shardName (label2path "st" L) 0) ∧
      (g.fs.map Prod.fst).Nodup :=
  claim_C5 "st" zooSeq (by decide) (by decide)

/-- C10: when `insert` finds the freshly suffixed target name already
occupied (possible through genuine shard-name aliasing, e.g. labels `ab`
and `ab.1`), it raises the duplicate-file `ValueError` after having
already appended the label to the in-memory index; no weight is recorded
and no file is written — the operation is not atomic. -/
theorem claim_C10 (f : OOCFrame ℚ) (st : WState ℚ) (L : String) (v : List ℚ) (w : ℚ)
    (u u' : List ℚ) (hw : f.writable = some st)
    (h0 : alistGet f.fs (shardName (label2path f.path L) 0) = some u)
    (h1 : alistGet f.fs (shardName (label2path f.path L)
      ((alistGet st.fileroots2ids (label2path f.path L)).getD 0 + 1)) = some u') :
    (f.insert L v w).2 = some (.duplicateFile (shardName (label2path f.path L)
      ((alistGet st.fileroots2ids (label2path f.path L)).getD 0 + 1))) ∧
    (f.insert L v w).1.index = f.index ++ [L] ∧
    (f.insert L v w).1.fs = f.fs ∧
    (f.insert L v w).1.writable.map (fun s => s.filenames2weights) =
      some st.filenames2weights := by
  rw [insert_eq_dup_err f st f.path L v w u u' rfl hw h0 h1]
  exact ⟨rfl, rfl, rfl, rfl⟩

theorem claim_C10_witness :
    (abStore.insert "/c/en/ab" [3] 1).2 =
      some (.duplicateFile (shardName (label2path abStore.path "/c/en/ab")
        ((alistGet abWState.fileroots2ids (label2path abStore.path "/c/en/ab")).getD 0
          + 1))) ∧
    (abStore.insert "/c/en/ab" [3] 1).1.index = abStore.index ++ ["/c/en/ab"] ∧
    (abStore.insert "/c/en/ab" [3] 1).1.fs = abStore.fs ∧
    (abStore.insert "/c/en/ab" [3] 1).1.writable.map (fun s => s.filenames2weights) =
      some abWState.filenames2weights :=
  claim_C10 abStore abWState "/c/en/ab" [3] 1 [1] [2] (by decide) (by decide) (by decide)

/-! ## Real lemmas for the row L2 pass -/

theorem sum_sq_nonneg (v : List ℝ) : 0 ≤ (v.map (fun x => x ^ 2)).sum :=
  List.sum_nonneg (fun x hx => by
    rcases List.mem_map.mp hx with ⟨y, _, rfl⟩
    exact sq_nonneg y)

theorem sum_sq_pos (v : List ℝ) (hx : ∃ x ∈ v, x ≠ 0) :
    0 < (v.map (fun x => x ^ 2)).sum := by
  rcases hx with ⟨x, hxm, hx0⟩
  have h1 : x ^ 2 ≤ (v.map (fun y => y ^ 2)).sum :=
    List.single_le_sum (fun y hy => by
      rcases List.mem_map.mp hy with ⟨z, _, rfl⟩
      exact sq_nonneg z) _ (List.mem_map_of_mem _ hxm)
  have h2 : 0 < x ^ 2 := by positivity
  linarith

theorem sum_sq_zero (v : List ℝ) (h : ∀ x ∈ v, x = 0) :
    (v.map (fun x => x ^ 2)).sum = 0 := by
  apply List.sum_eq_zero
  intro x hx
  rcases List.mem_map.mp hx with ⟨y, hy, rfl⟩
  rw [h y hy]
  ring

theorem l2n_zero (v : List ℝ) (h : ∀ x ∈ v, x = 0) : l2n v = v := by
  rw [l2n, sum_sq_zero v h, Real.sqrt_zero]
  have hm : v.map (fun x => x / (0 : ℝ)) = v.map id :=
    List.map_congr_left (fun x hx => by rw [h x hx]; simp)
  rw [hm, List.map_id]

theorem l2n_sum_sq (v : List ℝ) (hx : ∃ x ∈ v, x ≠ 0) :
    ((l2n v).map (fun x => x ^ 2)).sum = 1 := by
  have hS : 0 < (v.map (fun x => x ^ 2)).sum := sum_sq_pos v hx
  have hs : 0 < Real.sqrt ((v.map (fun x => x ^ 2)).sum) := Real.sqrt_pos.mpr hS
  rw [l2n, List.map_map]
  have hfun : ((fun x => x ^ 2) ∘ fun x => x / Real.sqrt ((v.map (fun x => x ^ 2)).sum)) =
      fun x => x ^ 2 * (Real.sqrt ((v.map (fun x => x ^ 2)).sum) ^ 2)⁻¹ := by
    funext x
    rw [Function.comp_apply, div_pow, div_eq_mul_inv]
  rw [hfun, List.sum_map_mul_right, Real.sq_sqrt (le_of_lt hS), mul_inv_cancel₀ (ne_of_gt hS)]

theorem l2n_norm_one (v : List ℝ) (hx : ∃ x ∈ v, x ≠ 0) :
    Real.sqrt (((l2n v).map (fun x => x ^ 2)).sum) = 1 := by
  rw [l2n_sum_sq v hx, Real.sqrt_one]

theorem l2n_idem (v : List ℝ) : l2n (l2n v) = l2n v := by
  by_cases h : ∀ x ∈ v, x = 0
  · rw [l2n_zero v h, l2n_zero v h]
  · have hx : ∃ x ∈ v, x ≠ 0 := by push_neg at h; exact h
    rw [show l2n (l2n v) = (l2n v).map
        (· / Real.sqrt (((l2n v).map (fun x => x ^ 2)).sum)) from rfl,
      l2n_norm_one v hx]
    simp

theorem mem_keys_alistSet_of_mem {β : Type _} (l : List (String × β)) (k key : String)
    (v : β) (h : key ∈ l.map Prod.fst) : key ∈ (alistSet l k v).map Prod.fst := by
  by_cases hm : k ∈ l.map Prod.fst
  · rw [keys_alistSet_of_mem l k v hm]
    exact h
  · rw [keys_alistSet_of_not_mem l k v hm]
    exact List.mem_append_left _ h

/-- One sweep of the row L2 pass: every visited canonical file ends up
holding the normalization of its original content, every file's content is
either its original one or the normalization of it, and already-normalized
files stay normalized. -/
theorem l2_fold_spec (sp : String) (orig : List (String × List ℝ)) (idx : List String) :
    ∀ fs : List (String × List ℝ),
    (∀ key, alistGet fs key = alistGet orig key ∨
      ∃ v, alistGet orig key = some v ∧ alistGet fs key = some (l2n v)) →
    (∀ L ∈ idx, (alistGet fs (shardName (label2path sp L) 0)).isSome = true) →
    ∃ fs1, idx.foldlM (l2Step Real.sqrt sp) fs = .ok fs1 ∧
      (∀ key, alistGet fs1 key = alistGet orig key ∨
        ∃ v, alistGet orig key = some v ∧ alistGet fs1 key = some (l2n v)) ∧
      (∀ L ∈ idx, ∃ v, alistGet orig (shardName (label2path sp L) 0) = some v ∧
        alistGet fs1 (shardName (label2path sp L) 0) = some (l2n v)) ∧
      (∀ key v, alistGet orig key = some v → alistGet fs key = some (l2n v) →
        alistGet fs1 key = some (l2n v)) := by
  induction idx with
  | nil =>
    intro fs htr _
    exact ⟨fs, rfl, htr, fun L hL => absurd hL (List.not_mem_nil L),
      fun _ _ _ h2 => h2⟩
  | cons L rest ih =>
    intro fs htr hpres
    obtain ⟨u, hu⟩ : ∃ u, alistGet fs (shardName (label2path sp L) 0) = some u :=
      Option.isSome_iff_exists.mp (hpres L (List.mem_cons_self _ _))
    obtain ⟨ov, hov, hlov⟩ : ∃ ov, alistGet orig (shardName (label2path sp L) 0) = some ov ∧
        l2n u = l2n ov := by
      rcases htr (shardName (label2path sp L) 0) with h | ⟨v, hv1, hv2⟩
      · exact ⟨u, by rw [← h]; exact hu, rfl⟩
      · rw [hu] at hv2
        have hueq : u = l2n v := Option.some.inj hv2
        exact ⟨v, hv1, by rw [hueq, l2n_idem]⟩
    have hstep : l2Step Real.sqrt sp fs L =
        .ok (alistSet fs (shardName (label2path sp L) 0) (l2n u)) := by
      simp only [l2Step, hu]
      rfl
    have htr' : ∀ key,
        alistGet (alistSet fs (shardName (label2path sp L) 0) (l2n u)) key =
          alistGet orig key ∨
        ∃ v, alistGet orig key = some v ∧
          alistGet (alistSet fs (shardName (label2path sp L) 0) (l2n u)) key =
            some (l2n v) := by
      intro key
      by_cases hk : key = shardName (label2path sp L) 0
      · subst hk
        exact Or.inr ⟨ov, hov, by rw [alistGet_set_self, hlov]⟩
      · rw [alistGet_set_ne _ _ hk]
        exact htr key
    have hpres' : ∀ M ∈ rest,
        (alistGet (alistSet fs (shardName (label2path sp L) 0) (l2n u))
          (shardName (label2path sp M) 0)).isSome = true := by
      intro M hM
      by_cases hk : shardName (label2path sp M) 0 = shardName (label2path sp L) 0
      · rw [hk, alistGet_set_self]
        rfl
      · rw [alistGet_set_ne _ _ hk]
        exact hpres M (List.mem_cons_of_mem _ hM)
    rcases ih (alistSet fs (shardName (label2path sp L) 0) (l2n u)) htr' hpres' with
      ⟨fs1, hfold, htr1, hdone1, hkeep1⟩
    refine ⟨fs1, ?_, htr1, ?_, ?_⟩
    · rw [List.foldlM_cons, hstep]
      exact hfold
    · intro M hM
      rcases List.mem_cons.mp hM with heq | hMr
      · subst heq
        refine ⟨ov, hov, ?_⟩
        exact hkeep1 _ ov hov (by rw [alistGet_set_self, hlov])
      · exact hdone1 M hMr
    · intro key v h1 h2
      apply hkeep1 key v h1
      by_cases hk : key = shardName (label2path sp L) 0
      · subst hk
        rw [alistGet_set_self]
        rw [hu] at h2
        have hueq : u = l2n v := Option.some.inj h2
        rw [hueq, l2n_idem]
      · rw [alistGet_set_ne _ _ hk]
        exact h2

theorem alistGet_set_isSome {β : Type _} (l : List (String × β)) (k key : String) (v : β)
    (h : (alistGet l key).isSome = true) :
    (alistGet (alistSet l k v) key).isSome = true := by
  by_cases hk : key = k
  · subst hk
    rw [alistGet_set_self]
    rfl
  · rw [alistGet_set_ne _ _ hk]
    exact h

/-- The first sweep of `l1_normalize_columns` succeeds whenever every
index label's canonical file is present. -/
theorem l1_acc_fold_ok {α : Type} [Field α] (sp : String) (fs : List (String × List α))
    (idx : List String)
    (hp : ∀ L ∈ idx, (alistGet fs (shardName (label2path sp L) 0)).isSome = true) :
    ∀ cn, ∃ cn1, idx.foldlM (l1AccStep fs sp) cn = .ok cn1 := by
  induction idx with
  | nil => exact fun cn => ⟨cn, rfl⟩
  | cons L rest ih =>
    intro cn
    obtain ⟨v, hv⟩ := Option.isSome_iff_exists.mp (hp L (List.mem_cons_self _ _))
    have hrest := ih (fun M hM => hp M (List.mem_cons_of_mem _ hM))
    have hs : ∃ r, l1AccStep fs sp cn L = .ok r := by
      cases cn with
      | none => exact ⟨some v, by simp only [l1AccStep, hv]⟩
      | some c => exact ⟨some (vadd c v), by simp only [l1AccStep, hv]⟩
    obtain ⟨r, hs⟩ := hs
    obtain ⟨cn1, h1⟩ := hrest r
    refine ⟨cn1, ?_⟩
    rw [List.foldlM_cons, hs]
    exact h1

/-- The second sweep of `l1_normalize_columns` succeeds whenever every
index label's canonical file is present. -/
theorem l1_div_fold_ok {α : Type} [Field α] (sp : String) (c : List α) (idx : List String) :
    ∀ fs : List (String × List α),
    (∀ L ∈ idx, (alistGet fs (shardName (label2path sp L) 0)).isSome = true) →
    ∃ fs1, idx.foldlM (l1DivStep c sp) fs = .ok fs1 := by
  induction idx with
  | nil => exact fun fs _ => ⟨fs, rfl⟩
  | cons L rest ih =>
    intro fs hp
    obtain ⟨v, hv⟩ := Option.isSome_iff_exists.mp (hp L (List.mem_cons_self _ _))
    have hs : l1DivStep c sp fs L =
        .ok (alistSet fs (shardName (label2path sp L) 0) (vdiv v c)) := by
      simp only [l1DivStep, hv]
    obtain ⟨fs1, h1⟩ := ih (alistSet fs (shardName (label2path sp L) 0) (vdiv v c))
      (fun M hM => alistGet_set_isSome _ _ _ _ (hp M (List.mem_cons_of_mem _ hM)))
    refine ⟨fs1, ?_⟩
    rw [List.foldlM_cons, hs]
    exact h1

/-- `l1_normalize_columns` succeeds — regardless of phase — whenever every
index label's canonical file is present. -/
theorem l1_normalize_ok {α : Type} [Field α] (f : OOCFrame α)
    (hp : ∀ L ∈ f.index, (alistGet f.fs (shardName (label2path f.path L) 0)).isSome = true) :
    ∃ g, f.l1_normalize_columns = .ok g := by
  obtain ⟨cn1, hacc⟩ := l1_acc_fold_ok f.path f.fs f.index hp none
  cases cn1 with
  | none =>
    refine ⟨f, ?_⟩
    simp only [OOCFrame.l1_normalize_columns]
    rw [hacc]
    rfl
  | some c =>
    obtain ⟨fs1, hdiv⟩ := l1_div_fold_ok f.path c f.index f.fs hp
    refine ⟨{ f with fs := fs1 }, ?_⟩
    have hred : f.l1_normalize_columns =
        Except.bind (f.index.foldlM (l1DivStep c f.path) f.fs)
          (fun fs2 => Except.ok { f with fs := fs2 }) := by
      simp only [OOCFrame.l1_normalize_columns]
      rw [hacc]
      rfl
    rw [hred, hdiv]
    rfl

/-- `l2_normalize_rows` succeeds — regardless of phase — whenever every
index label's canonical file is present. -/
theorem l2_normalize_ok (f : OOCFrame ℝ)
    (hp : ∀ L ∈ f.index, (alistGet f.fs (shardName (label2path f.path L) 0)).isSome = true) :
    ∃ g, OOCFrame.l2_normalize_rows Real.sqrt f = .ok g ∧ g.path = f.path ∧
      g.writable = f.writable ∧ g.index = f.index ∧
      (∀ key, alistGet g.fs key = alistGet f.fs key ∨
        ∃ v, alistGet f.fs key = some v ∧ alistGet g.fs key = some (l2n v)) ∧
      (∀ L ∈ f.index, ∃ v, alistGet f.fs (shardName (label2path f.path L) 0) = some v ∧
        alistGet g.fs (shardName (label2path f.path L) 0) = some (l2n v)) := by
  obtain ⟨fs1, hfold, htr1, hdone1, _⟩ :=
    l2_fold_spec f.path f.fs f.index f.fs (fun _ => Or.inl rfl) hp
  refine ⟨{ f with fs := fs1 }, ?_, rfl, rfl, rfl, htr1, hdone1⟩
  simp only [OOCFrame.l2_normalize_rows]
  rw [hfold]
  rfl

/-- C3 (counterexample): `dogWritable` is still in the Writable phase
(`combine_weights` not yet called), yet `l1_normalize_columns` does not
fail — there is no phase check in the source — and it rewrites the stored
vector `[3, 4]` to `[1, 1]`. -/
theorem claim_C3_counterexample :
    dogWritable.writable.isSome = true ∧
    OOCFrame.l1_normalize_columns dogWritable =
      .ok { dogWritable with fs := [(canonFile "st" "/c/en/dog", [1, 1])] } := by
  decide

/-- C3 (amended): neither normalization pass checks the store's phase.
On every store still in the Writable phase whose index labels all have
their canonical file present, both the column L1 pass and the row L2 pass
return successfully instead of failing with an `InvalidStateError`. -/
theorem claim_C3 (f : OOCFrame ℝ) (hw : f.writable.isSome = true)
    (hp : ∀ L ∈ f.index, (alistGet f.fs (shardName (label2path f.path L) 0)).isSome = true) :
    (∃ g, f.l1_normalize_columns = .ok g) ∧
    (∃ g, OOCFrame.l2_normalize_rows Real.sqrt f = .ok g) := by
  refine ⟨l1_normalize_ok f hp, ?_⟩
  obtain ⟨g, hok, _⟩ := l2_normalize_ok f hp
  exact ⟨g, hok⟩

/-- Witness for C3: the writable one-vector store `dogWritableR`. -/
theorem claim_C3_witness :
    dogWritableR.writable.isSome = true ∧
    (∃ g, OOCFrame.l1_normalize_columns dogWritableR = .ok g) ∧
    (∃ g, OOCFrame.l2_normalize_rows Real.sqrt dogWritableR = .ok g) :=
  ⟨rfl, claim_C3 dogWritableR rfl (by decide)⟩

/-- C7: on a Frozen store in which every index label's canonical file is
present and every stored file is the canonical file of some index label,
the row L2 pass succeeds and replaces every stored vector `v` by
`v / sqrt (Σ v_i^2)`; every replaced vector that was not exactly zero has
Euclidean norm 1 afterwards. -/
theorem claim_C7 (f : OOCFrame ℝ) (hfroz : f.writable = none)
    (hp : ∀ L ∈ f.index, (alistGet f.fs (shardName (label2path f.path L) 0)).isSome = true)
    (hkeys : ∀ key ∈ f.fs.map Prod.fst, ∃ L ∈ f.index,
      key = shardName (label2path f.path L) 0) :
    ∃ g, OOCFrame.l2_normalize_rows Real.sqrt f = .ok g ∧ g.writable = none ∧
      g.index = f.index ∧
      ∀ key v, alistGet f.fs key = some v →
        alistGet g.fs key = some (l2n v) ∧
        ((∃ x ∈ v, x ≠ 0) →
          Real.sqrt (((l2n v).map (fun x => x ^ 2)).sum) = 1) := by
  obtain ⟨g, hok, _, hwr, hidx, _, hdone⟩ := l2_normalize_ok f hp
  refine ⟨g, hok, by rw [hwr, hfroz], hidx, ?_⟩
  intro key v hv
  obtain ⟨L, hL, hkey⟩ := hkeys key
    (List.mem_map_of_mem Prod.fst (alistGet_some_mem _ _ _ hv))
  obtain ⟨w, hw1, hw2⟩ := hdone L hL
  rw [hkey] at hv
  have hwv : w = v := Option.some.inj (hw1.symm.trans hv)
  subst hwv
  rw [hkey]
  exact ⟨hw2, fun hx => l2n_norm_one w hx⟩

/-- Witness for C7: the frozen store holding the spec's `[3, 4]` example
vector under `/c/en/dog`. -/
theorem claim_C7_witness :
    ∃ g, OOCFrame.l2_normalize_rows Real.sqrt dogStore = .ok g ∧ g.writable = none ∧
      g.index = dogStore.index ∧
      ∀ key v, alistGet dogStore.fs key = some v →
        alistGet g.fs key = some (l2n v) ∧
        ((∃ x ∈ v, x ≠ 0) →
          Real.sqrt (((l2n v).map (fun x => x ^ 2)).sum) = 1) :=
  claim_C7 dogStore rfl (by decide) (by decide)

/-- C8 (counterexample): on the frozen store holding the exactly-zero
vector `[0, 0]`, the row L2 pass does not fail at all — no
`DegenerateVectorError` (or any error) exists in the source — it returns
successfully with the store unchanged (the division of zero by the zero
norm yields zero). -/
theorem claim_C8_counterexample :
    OOCFrame.l2_normalize_rows Real.sqrt zeroStore = .ok zeroStore := by
  have hget : alistGet zeroStore.fs (shardName (label2path "st" "/c/en/zero") 0) =
      some ([0, 0] : List ℝ) := by
    simp [zeroStore, alistGet, canonFile]
  have hvec : (([(0 : ℝ), 0]).map
      (· / Real.sqrt ((([(0 : ℝ), 0]).map (fun x => x ^ 2)).sum))) = [0, 0] := by
    have h0 : ((([(0 : ℝ), 0]).map (fun x => x ^ 2)).sum) = 0 := by simp
    rw [h0, Real.sqrt_zero]
    simp
  have hset : alistSet zeroStore.fs (shardName (label2path "st" "/c/en/zero") 0)
      ([0, 0] : List ℝ) = zeroStore.fs := by
    simp [zeroStore, alistSet, canonFile]
  have hstep : l2Step Real.sqrt "st" zeroStore.fs "/c/en/zero" = .ok zeroStore.fs := by
    simp only [l2Step, hget, hvec, hset]
  have hfold : zeroStore.index.foldlM (l2Step Real.sqrt zeroStore.path) zeroStore.fs =
      .ok zeroStore.fs := by
    rw [show zeroStore.index = ["/c/en/zero"] from rfl, List.foldlM_cons]
    rw [show zeroStore.path = "st" from rfl, hstep]
    rfl
  simp only [OOCFrame.l2_normalize_rows]
  rw [hfold]
  rfl

/-- C8 (amended): the row L2 pass never raises on a zero vector: whenever
every index label's canonical file is present the pass succeeds, and every
stored vector that is exactly zero is written back unchanged (the
division-by-zero-norm result of a zero vector is the zero vector itself)
rather than causing any error. -/
theorem claim_C8 (f : OOCFrame ℝ)
    (hp : ∀ L ∈ f.index, (alistGet f.fs (shardName (label2path f.path L) 0)).isSome = true) :
    ∃ g, OOCFrame.l2_normalize_rows Real.sqrt f = .ok g ∧
      ∀ key v, alistGet f.fs key = some v → (∀ x ∈ v, x = 0) →
        alistGet g.fs key = some v := by
  obtain ⟨g, hok, _, _, _, htr, _⟩ := l2_normalize_ok f hp
  refine ⟨g, hok, ?_⟩
  intro key v hv hz
  rcases htr key with h | ⟨w, hw1, hw2⟩
  · rw [h]
    exact hv
  · have hwv : w = v := Option.some.inj (hw1.symm.trans hv)
    subst hwv
    rw [hw2, l2n_zero w hz]

/-- Witness for C8: the frozen store holding the zero vector. -/
theorem claim_C8_witness :
    ∃ g, OOCFrame.l2_normalize_rows Real.sqrt zeroStore = .ok g ∧
      ∀ key v, alistGet zeroStore.fs key = some v → (∀ x ∈ v, x = 0) →
        alistGet g.fs key = some v :=
  claim_C8 zeroStore (by decide)

/-! ## String lemmas for the sharding round trip (C9) -/

theorem splitChars_ne_nil (sep : Char) (xs : List Char) : splitChars sep xs ≠ [] := by
  cases xs with
  | nil => simp [splitChars]
  | cons c cs =>
    by_cases h : c = sep
    · simp [splitChars, h]
    · simp only [splitChars, if_neg h]
      cases hs : splitChars sep cs <;> simp

theorem splitChars_cons_sep (sep : Char) (xs : List Char) :
    splitChars sep (sep :: xs) = [] :: splitChars sep xs := by
  simp [splitChars]

theorem splitChars_cons_ne (sep c : Char) (h : ¬c = sep) (xs : List Char) :
    splitChars sep (c :: xs) =
      match splitChars sep xs with
      | [] => [[c]]
      | a :: t => (c :: a) :: t := by
  simp [splitChars, h]

/-- Splitting distributes over concatenation across a separator. -/
theorem splitChars_append (sep : Char) (xs ys : List Char) :
    splitChars sep (xs ++ sep :: ys) = splitChars sep xs ++ splitChars sep ys := by
  induction xs with
  | nil => simp [splitChars]
  | cons c cs ih =>
    by_cases h : c = sep
    · subst h
      rw [List.cons_append, splitChars_cons_sep, splitChars_cons_sep, ih]
      simp
    · rw [List.cons_append, splitChars_cons_ne sep c h (cs ++ sep :: ys),
        splitChars_cons_ne sep c h cs, ih]
      cases hs : splitChars sep cs with
      | nil => exact absurd hs (splitChars_ne_nil sep cs)
      | cons a t => simp

/-- A separator-free list splits into a single chunk. -/
theorem splitChars_noSep (sep : Char) (xs : List Char) (h : sep ∉ xs) :
    splitChars sep xs = [xs] := by
  induction xs with
  | nil => rfl
  | cons c cs ih =>
    have hc : ¬(c = sep) := fun he => h (he ▸ List.mem_cons_self c cs)
    have ih' := ih (fun hm => h (List.mem_cons_of_mem _ hm))
    simp only [splitChars, if_neg hc]
    rw [ih']

theorem joinChars_cons₂ (sep : Char) (x h : List Char) (t : List (List Char)) :
    joinChars sep (x :: h :: t) = x ++ sep :: joinChars sep (h :: t) := rfl

/-- Joining inverts splitting. -/
theorem joinChars_splitChars (sep : Char) (xs : List Char) :
    joinChars sep (splitChars sep xs) = xs := by
  induction xs with
  | nil => rfl
  | cons c cs ih =>
    by_cases h : c = sep
    · subst h
      rw [splitChars_cons_sep]
      cases hs : splitChars c cs with
      | nil => exact absurd hs (splitChars_ne_nil c cs)
      | cons a t =>
        rw [joinChars_cons₂]
        simp only [List.nil_append]
        rw [hs] at ih
        rw [ih]
    · simp only [splitChars, if_neg h]
      cases hs : splitChars sep cs with
      | nil => exact absurd hs (splitChars_ne_nil sep cs)
      | cons a t =>
        have ih2 : joinChars sep (a :: t) = cs := by rw [← hs]; exact ih
        cases t with
        | nil =>
          have ha : a = cs := ih2
          rw [show joinChars sep [c :: a] = c :: a from rfl, ha]
        | cons b u =>
          rw [joinChars_cons₂]
          rw [joinChars_cons₂] at ih2
          rw [← ih2]
          simp

theorem str_append_empty (s : String) : s ++ "" = s := by simp

theorem str_data_ne {s : String} (h : s ≠ "") : s.data ≠ [] :=
  fun hd => h (String.ext hd)

theorem str_ne_empty (s t : String) (h : t.data ≠ []) : s ++ t ≠ "" := by
  intro hc
  have h2 : (s ++ t).data = [] := by rw [hc]
  rw [String.data_append] at h2
  exact h (List.append_eq_nil.mp h2).2

theorem startsWithSlash_eq_false (s : String) (h : '/' ∉ s.data) :
    startsWithSlash s = false := by
  unfold startsWithSlash
  cases hd : s.data with
  | nil => rfl
  | cons c t =>
    have hc : c ≠ '/' := fun he => h (by rw [hd, he]; exact List.mem_cons_self _ _)
    simp [hc]

theorem endsWithSlash_eq_false (s : String) (h : '/' ∉ s.data) :
    endsWithSlash s = false := by
  unfold endsWithSlash
  cases hd : s.data.getLast? with
  | none => rfl
  | some c =>
    have hc : c ≠ '/' := fun he => h (he ▸ List.mem_of_mem_getLast? hd)
    simp [hc]

theorem endsWithSlash_append (a b : String) (hb : b.data ≠ []) :
    endsWithSlash (a ++ b) = endsWithSlash b := by
  unfold endsWithSlash
  rw [String.data_append, List.getLast?_append]
  cases hb2 : b.data.getLast? with
  | none => exact absurd (List.getLast?_eq_none_iff.mp hb2) hb
  | some c => rfl

theorem endsWithSlash_append_slash (s : String) : endsWithSlash (s ++ "/") = true := by
  rw [endsWithSlash_append s "/" (by decide)]
  decide

theorem shardDir_data_ne_nil (term : String) (i : Nat) : (shardDir term i).data ≠ [] := by
  by_cases h : isWordChar (term.data[i]?.getD '_')
  · simp [shardDir, h]
  · simp [shardDir, h]

theorem shardDir_no_slash (term : String) (i : Nat) : '/' ∉ (shardDir term i).data := by
  by_cases h : isWordChar (term.data.getD i '_')
  · simp only [shardDir, if_pos h]
    intro hm
    have hm' : '/' ∈ [term.data.getD i '_'] := hm
    rw [List.mem_singleton] at hm'
    rw [← hm'] at h
    exact absurd h (by decide)
  · simp only [shardDir, if_neg h]
    decide

theorem ospJoinTwo_of (a b : String) (hb : startsWithSlash b = false) (ha : a ≠ "")
    (ha2 : endsWithSlash a = false) : ospJoinTwo a b = a ++ "/" ++ b := by
  simp [ospJoinTwo, hb, ha, ha2]

theorem ospJoinTwo_slash (a b : String) (hb : startsWithSlash b = false)
    (ha : endsWithSlash a = true) : ospJoinTwo a b = a ++ b := by
  simp [ospJoinTwo, hb, ha]

theorem ospJoin_step (X y z : String) (hy : y.data ≠ []) (hy2 : '/' ∉ y.data)
    (hz : startsWithSlash z = false) :
    ospJoinTwo (X ++ "/" ++ y) z = X ++ "/" ++ y ++ "/" ++ z :=
  ospJoinTwo_of _ _ hz (str_ne_empty _ _ hy)
    ((endsWithSlash_append _ _ hy).trans (endsWithSlash_eq_false _ hy2))

theorem shardName_zero (R : String) : shardName R 0 = R ++ ".npy" := by
  simp [shardName]

/-- The shard path of a `/c/<language>/<term>` label under a plain store
path: the store path, then `c`, the language, three one-character shard
directories, and the term. -/
theorem label2path_eq (sp lang term : String) (hsp : sp ≠ "")
    (hsp2 : endsWithSlash sp = false) (hlang : lang ≠ "") (hl : '/' ∉ lang.data)
    (ht : '/' ∉ term.data) :
    label2path sp ("/c/" ++ lang ++ "/" ++ term) =
      sp ++ "/" ++ "c" ++ "/" ++ lang ++ "/" ++ shardDir term 0 ++ "/" ++
        shardDir term 1 ++ "/" ++ shardDir term 2 ++ "/" ++ term := by
  have hdata : ("/c/" ++ lang ++ "/" ++ term).data =
      [] ++ '/' :: (['c'] ++ '/' :: (lang.data ++ '/' :: term.data)) := by
    have h1 : ("/c/" : String).data = ['/', 'c', '/'] := rfl
    have h2 : ("/" : String).data = ['/'] := rfl
    simp [String.data_append, h1, h2, List.append_assoc]
  have hsplit : splitChars '/' ("/c/" ++ lang ++ "/" ++ term).data =
      [[], ['c'], lang.data, term.data] := by
    rw [hdata, splitChars_append, splitChars_append, splitChars_append,
      splitChars_noSep '/' lang.data hl, splitChars_noSep '/' term.data ht]
    rfl
  have hsplitted : (splitChars '/' ("/c/" ++ lang ++ "/" ++ term).data).map String.mk =
      ["", "c", lang, term] := by
    rw [hsplit]
    rfl
  simp only [label2path]
  rw [hsplitted]
  rw [show (["", "c", lang, term] : List String).getLastD "" = term from rfl]
  rw [show (["", "c", lang, term] : List String).dropLast = ["", "c", lang] from rfl]
  rw [show (List.range N_CHAR_DIRS).map (shardDir term) =
    [shardDir term 0, shardDir term 1, shardDir term 2] from rfl]
  rw [show (["", "c", lang] ++ [shardDir term 0, shardDir term 1, shardDir term 2] ++
    [term] : List String) =
    ["", "c", lang, shardDir term 0, shardDir term 1, shardDir term 2, term] from rfl]
  simp only [ospJoin, List.foldl_cons, List.foldl_nil]
  rw [ospJoinTwo_of sp "" rfl hsp hsp2, str_append_empty]
  rw [ospJoinTwo_slash (sp ++ "/") "c" rfl (endsWithSlash_append_slash sp)]
  rw [ospJoin_step sp "c" lang (by decide) (by decide) (startsWithSlash_eq_false lang hl)]
  rw [ospJoin_step (sp ++ "/" ++ "c") lang (shardDir term 0) (str_data_ne hlang) hl
    (startsWithSlash_eq_false _ (shardDir_no_slash term 0))]
  rw [ospJoin_step (sp ++ "/" ++ "c" ++ "/" ++ lang) (shardDir term 0) (shardDir term 1)
    (shardDir_data_ne_nil term 0) (shardDir_no_slash term 0)
    (startsWithSlash_eq_false _ (shardDir_no_slash term 1))]
  rw [ospJoin_step (sp ++ "/" ++ "c" ++ "/" ++ lang ++ "/" ++ shardDir term 0)
    (shardDir term 1) (shardDir term 2) (shardDir_data_ne_nil term 1)
    (shardDir_no_slash term 1) (startsWithSlash_eq_false _ (shardDir_no_slash term 2))]
  rw [ospJoin_step
    (sp ++ "/" ++ "c" ++ "/" ++ lang ++ "/" ++ shardDir term 0 ++ "/" ++ shardDir term 1)
    (shardDir term 2) term (shardDir_data_ne_nil term 2) (shardDir_no_slash term 2)
    (startsWithSlash_eq_false term ht)]

/-- The inverse mapping of the sharding scheme recovers every
`/c/<language>/<term>` label from its canonical shard file name. -/
theorem filepath2label_roundtrip (sp lang term : String) (hsp : sp ≠ "")
    (hsp2 : endsWithSlash sp = false) (hlang : lang ≠ "") (hl : '/' ∉ lang.data)
    (ht : '/' ∉ term.data) :
    filepath2label (shardName (label2path sp ("/c/" ++ lang ++ "/" ++ term)) 0) =
      some ("/c/" ++ lang ++ "/" ++ term) := by
  rw [shardName_zero, label2path_eq sp lang term hsp hsp2 hlang hl ht]
  have hlast : '/' ∉ term.data ++ '.' :: ['n', 'p', 'y'] := by
    intro hm
    rcases List.mem_append.mp hm with hm1 | hm1
    · exact ht hm1
    · exact absurd hm1 (by decide)
  have hfdata : (sp ++ "/" ++ "c" ++ "/" ++ lang ++ "/" ++ shardDir term 0 ++ "/" ++
      shardDir term 1 ++ "/" ++ shardDir term 2 ++ "/" ++ term ++ ".npy").data =
      sp.data ++ '/' :: (['c'] ++ '/' :: (lang.data ++ '/' :: ((shardDir term 0).data ++
        '/' :: ((shardDir term 1).data ++ '/' :: ((shardDir term 2).data ++
          '/' :: (term.data ++ '.' :: ['n', 'p', 'y'])))))) := by
    have h1 : ("/" : String).data = ['/'] := rfl
    have h2 : ("c" : String).data = ['c'] := rfl
    have h3 : (".npy" : String).data = ['.', 'n', 'p', 'y'] := rfl
    simp [String.data_append, h1, h2, h3, List.append_assoc]
  have hsplitf : splitChars '/' (sp ++ "/" ++ "c" ++ "/" ++ lang ++ "/" ++
      shardDir term 0 ++ "/" ++ shardDir term 1 ++ "/" ++ shardDir term 2 ++ "/" ++
      term ++ ".npy").data =
      splitChars '/' sp.data ++ [['c'], lang.data, (shardDir term 0).data,
        (shardDir term 1).data, (shardDir term 2).data,
        term.data ++ '.' :: ['n', 'p', 'y']] := by
    rw [hfdata, splitChars_append, splitChars_append, splitChars_append, splitChars_append,
      splitChars_append, splitChars_append,
      splitChars_noSep '/' lang.data hl,
      splitChars_noSep '/' (shardDir term 0).data (shardDir_no_slash term 0),
      splitChars_noSep '/' (shardDir term 1).data (shardDir_no_slash term 1),
      splitChars_noSep '/' (shardDir term 2).data (shardDir_no_slash term 2),
      splitChars_noSep '/' (term.data ++ '.' :: ['n', 'p', 'y']) hlast]
    rfl
  simp only [filepath2label]
  rw [hsplitf, List.map_append]
  rw [show List.map String.mk [['c'], lang.data, (shardDir term 0).data,
    (shardDir term 1).data, (shardDir term 2).data,
    term.data ++ '.' :: ['n', 'p', 'y']] =
    ["c", lang, shardDir term 0, shardDir term 1, shardDir term 2,
      String.mk (term.data ++ '.' :: ['n', 'p', 'y'])] from rfl]
  have hklen : 1 ≤ ((splitChars '/' sp.data).map String.mk).length := by
    rw [List.length_map]
    exact List.length_pos.mpr (splitChars_ne_nil '/' sp.data)
  have hlen : ((splitChars '/' sp.data).map String.mk ++
      ["c", lang, shardDir term 0, shardDir term 1, shardDir term 2,
        String.mk (term.data ++ '.' :: ['n', 'p', 'y'])]).length =
      ((splitChars '/' sp.data).map String.mk).length + 6 := by
    rw [List.length_append]
    rfl
  have hcond : N_CHAR_DIRS + 2 ≤ ((splitChars '/' sp.data).map String.mk ++
      ["c", lang, shardDir term 0, shardDir term 1, shardDir term 2,
        String.mk (term.data ++ '.' :: ['n', 'p', 'y'])]).length := by
    rw [hlen]
    show 5 ≤ _ + 6
    omega
  rw [if_pos hcond]
  have hgd : ((splitChars '/' sp.data).map String.mk ++
      ["c", lang, shardDir term 0, shardDir term 1, shardDir term 2,
        String.mk (term.data ++ '.' :: ['n', 'p', 'y'])]).getD
      (((splitChars '/' sp.data).map String.mk ++
        ["c", lang, shardDir term 0, shardDir term 1, shardDir term 2,
          String.mk (term.data ++ '.' :: ['n', 'p', 'y'])]).length -
        (N_CHAR_DIRS + 2)) "" = lang := by
    rw [hlen]
    rw [show ((splitChars '/' sp.data).map String.mk).length + 6 - (N_CHAR_DIRS + 2) =
      ((splitChars '/' sp.data).map String.mk).length + 1 from by
        show _ + 6 - 5 = _ + 1
        omega]
    rw [List.getD_append_right _ _ _ _ (by omega)]
    rw [show ((splitChars '/' sp.data).map String.mk).length + 1 -
      ((splitChars '/' sp.data).map String.mk).length = 1 from by omega]
    rfl
  have hgl : ((splitChars '/' sp.data).map String.mk ++
      ["c", lang, shardDir term 0, shardDir term 1, shardDir term 2,
        String.mk (term.data ++ '.' :: ['n', 'p', 'y'])]).getLastD "" =
      String.mk (term.data ++ '.' :: ['n', 'p', 'y']) := by
    rw [List.getLastD_eq_getLast?, List.getLast?_append]
    rfl
  rw [hgd, hgl]
  have hstem : joinChars '.'
      ((splitChars '.' (String.mk (term.data ++ '.' :: ['n', 'p', 'y'])).data).dropLast) =
      term.data := by
    rw [show (String.mk (term.data ++ '.' :: ['n', 'p', 'y'])).data =
      term.data ++ '.' :: ['n', 'p', 'y'] from rfl]
    rw [splitChars_append]
    rw [show splitChars '.' ['n', 'p', 'y'] = [['n', 'p', 'y']] from rfl]
    rw [List.dropLast_concat]
    exact joinChars_splitChars '.' term.data
  rw [hstem]
  rfl

/-- A `mapM` over `Option` whose steps all succeed returns the list of
results, characterized by membership in both directions. -/
theorem mapM_option_spec {γ δ : Type} (f : γ → Option δ) (l : List γ)
    (h : ∀ x ∈ l, (f x).isSome = true) :
    ∃ ys, l.mapM f = some ys ∧
      (∀ y ∈ ys, ∃ x ∈ l, f x = some y) ∧
      (∀ x ∈ l, ∀ y, f x = some y → y ∈ ys) := by
  induction l with
  | nil =>
    refine ⟨[], rfl, ?_, ?_⟩
    · intro y hy
      exact absurd hy (List.not_mem_nil y)
    · intro x hx
      exact absurd hx (List.not_mem_nil x)
  | cons a t ih =>
    obtain ⟨b, hb⟩ := Option.isSome_iff_exists.mp (h a (List.mem_cons_self _ _))
    obtain ⟨ys, hys, h1, h2⟩ := ih (fun x hx => h x (List.mem_cons_of_mem _ hx))
    refine ⟨b :: ys, ?_, ?_, ?_⟩
    · rw [← List.mapM'_eq_mapM]
      simp only [List.mapM', List.mapM'_eq_mapM, hb, hys]
      rfl
    · intro y hy
      rcases List.mem_cons.mp hy with rfl | hy2
      · exact ⟨a, List.mem_cons_self _ _, hb⟩
      · obtain ⟨x, hx, hfx⟩ := h1 y hy2
        exact ⟨x, List.mem_cons_of_mem _ hx, hfx⟩
    · intro x hx y hfx
      rcases List.mem_cons.mp hx with rfl | hx2
      · rw [hb] at hfx
        rw [← Option.some.inj hfx]
        exact List.mem_cons_self _ _
      · exact List.mem_cons_of_mem _ (h2 x hx2 y hfx)

/-- C9 (counterexample): the label `/r/RelatedTo` is stored and finalized,
but reconstructing the store from its directory yields the label
`/c/r/RelatedTo` instead — `standardized_uri` rebuilds every label under
the `/c/` prefix, so the reconstructed label set differs from the
finalized one. -/
theorem claim_C9_counterexample :
    ((runStore "st" [("/r/RelatedTo", ([1] : List ℚ), 1)]).toOption.map
      (fun g => (g.index, (initExisting ℚ "st" (g.fs.map Prod.fst) g.fs).map
        (fun f2 => f2.index))) =
      some (["/r/RelatedTo"], some ["/c/r/RelatedTo"])) ∧
    ("/c/r/RelatedTo" : String) ≠ "/r/RelatedTo" := by
  decide

/-- C9 (amended): for a non-empty insertion sequence, into a store whose
path is plain (non-empty, no trailing slash), whose labels all have the
shape `/c/<language>/<term>` with non-empty slash-free language and
slash-free term, and whose shard roots do not collide, finalizing with
`combine_weights` and then reconstructing a store from any enumeration of
the resulting directory yields an index with exactly the same set of
labels as the finalized store's index. -/
theorem claim_C9 (sp : String) (hsp : sp ≠ "") (hsp2 : endsWithSlash sp = false)
    (seq : List (String × List ℚ × ℚ))
    (hshape : ∀ L ∈ seq.map Prod.fst, ∃ lang term, L = "/c/" ++ lang ++ "/" ++ term ∧
      lang ≠ "" ∧ '/' ∉ lang.data ∧ '/' ∉ term.data)
    (hsep : SepRoots sp (seq.map Prod.fst) seq.length) (hne : seq ≠ []) :
    ∃ g, runStore sp seq = .ok g ∧
      ∀ fpaths : List String, fpaths.Perm (g.fs.map Prod.fst) →
        ∃ f2, initExisting ℚ sp fpaths g.fs = some f2 ∧
          ∀ L, L ∈ f2.index ↔ L ∈ g.index := by
  obtain ⟨g, hrun, hshape2⟩ := runStore_ok sp seq hsep hne
  refine ⟨g, hrun, ?_⟩
  intro fpaths hperm
  have hkeys := hshape2.fs_keys
  have hfil : fpaths.filter (fun p => strEndsWith p ".npy") = fpaths := by
    rw [List.filter_eq_self]
    intro a ha
    obtain ⟨L, _, rfl⟩ := hkeys a (hperm.subset ha)
    exact shardName_endsWith _ _
  have hall : ∀ p ∈ fpaths, (filepath2label p).isSome = true := by
    intro p hp
    obtain ⟨L, hL, rfl⟩ := hkeys p (hperm.subset hp)
    obtain ⟨lang, term, rfl, h1, h2, h3⟩ := hshape L hL
    rw [filepath2label_roundtrip sp lang term hsp hsp2 h1 h2 h3]
    rfl
  obtain ⟨ys, hmapm, hfwd, hbwd⟩ := mapM_option_spec filepath2label fpaths hall
  refine ⟨⟨sp, none, ys, g.fs⟩, ?_, ?_⟩
  · simp only [initExisting]
    rw [hfil, hmapm]
  · intro L
    rw [hshape2.index_eq]
    constructor
    · intro hL
      obtain ⟨p, hp, hpl⟩ := hfwd L hL
      obtain ⟨M, hM, rfl⟩ := hkeys p (hperm.subset hp)
      obtain ⟨lang, term, rfl, h1, h2, h3⟩ := hshape M hM
      rw [filepath2label_roundtrip sp lang term hsp hsp2 h1 h2 h3] at hpl
      rw [← Option.some.inj hpl]
      exact hM
    · intro hL
      obtain ⟨lang, term, hLe, h1, h2, h3⟩ := hshape L hL
      have hc : shardName (label2path sp L) 0 ∈ g.fs.map Prod.fst :=
        List.mem_map_of_mem Prod.fst (alistGet_some_mem _ _ _ (hshape2.canon_get L hL))
      apply hbwd _ (hperm.mem_iff.mpr hc) L
      rw [hLe]
      exact filepath2label_roundtrip sp lang term hsp hsp2 h1 h2 h3

/-- Witness for C9: the one-label store `/c/en/dog` at path `st`. -/
theorem claim_C9_witness :
    ∃ g, runStore "st" [("/c/en/dog", ([3, 4] : List ℚ), 1)] = .ok g ∧
      ∀ fpaths : List String, fpaths.Perm (g.fs.map Prod.fst) →
        ∃ f2, initExisting ℚ "st" fpaths g.fs = some f2 ∧
          ∀ L, L ∈ f2.index ↔ L ∈ g.index :=
  claim_C9 "st" (by decide) (by decide) [("/c/en/dog", [3, 4], 1)]
    (fun L hL => by
      simp only [List.map_cons, List.map_nil, List.mem_singleton] at hL
      subst hL
      exact ⟨"en", "dog", rfl, by decide, by decide, by decide⟩)
    (by decide) (by decide)
